import Mathlib

/-!
Verification of the mcufont encoder (`src/encode.cc`) and dictionary
optimizer (`src/optimize.cc`) against the natural-language specification.

The C++ sources are shallowly embedded: bitstrings become `List Bool`,
byte strings become `List Nat` (the real program stores bytes; the
dictionary size 252 keeps every emitted reference below 256), the
dictionary lookup tree becomes an inductive binary tree with a `nil`
constructor standing for a null child pointer, and the optimizer's RNG
draws become explicit parameters, since the C++ distributions are
implementation defined.  The interface of `DataFile` (datafile.hh /
datafile.cc are not among the given sources) is modelled from the spec
where it is needed.
-/

namespace Mcufont

/-- A bitstring: `DataFile::bitstring_t`, pixel values in raster order. -/
abbrev BitString := List Bool

/-- `DataFile::dictentry_t` (declared in the missing datafile.hh; fields
from the spec data model: replacement bits, coding-mode flag, and the
integer score). -/
structure Dictentry where
  replacement : BitString
  ref_encode : Bool
  score : Int
deriving DecidableEq, Repr

/-- `DataFile::glyphentry_t`: glyph bitmap plus advance width. -/
structure Glyphentry where
  data : BitString
  width : Nat
deriving DecidableEq, Repr

/-- `DataFile::fontinfo_t`: the decoder only needs the glyph dimensions. -/
structure Fontinfo where
  max_width : Nat
  max_height : Nat
deriving DecidableEq, Repr

/-- `DataFile`: glyph table, dictionary slots, font metadata, RNG seed. -/
structure DataFile where
  glyphs : List Glyphentry
  dictionary : List Dictentry
  fontinfo : Fontinfo
  seed : Nat
deriving DecidableEq, Repr

/-- `encoded_font_t`: the three emitted sections. -/
structure EncodedFont where
  rle_dictionary : List (List Nat)
  ref_dictionary : List (List Nat)
  glyphs : List (List Nat)
deriving DecidableEq, Repr

/-! ## RLE codec (`encode_rle` in encode.cc, RLE branch of `decode_glyph`) -/

/-- The extension of a run: how many further bits equal to `b` follow,
capped at `cap`.  Mirrors the inner `while` loop of `encode_rle`, whose
`count` starts at 1 and grows while `count < 127`, so the extension is
capped at 126. -/
def runExt (b : Bool) : Nat → List Bool → Nat
  | 0, _ => 0
  | _, [] => 0
  | cap + 1, x :: xs => if x = b then runExt b cap xs + 1 else 0

/-- The loop of `encode_rle`, with a structural budget: each iteration
consumes at least one bit, so a budget of `bits.length` never runs out. -/
def encode_rle_go : Nat → List Bool → List Nat
  | 0, _ => []
  | _, [] => []
  | fuel + 1, b :: rest =>
    ((if b then 128 else 0) + (1 + runExt b 126 rest)) ::
      encode_rle_go fuel (rest.drop (1 + runExt b 126 rest - 1))

/-- `encode_rle`: one byte per run, top bit = pixel value, low seven bits
= run length (1..127). -/
def encode_rle (bits : List Bool) : List Nat :=
  encode_rle_go bits.length bits

/-- The RLE branch of `decode_glyph`: bit 7 is the pixel value, the low
seven bits are the repeat count. -/
def rle_decode_byte (x : Nat) : List Bool :=
  List.replicate (x % 128) (decide (128 ≤ x))

/-- Expansion of a whole RLE byte string (the loop over the bytes of a
`rlestring_t` inside `decode_glyph`). -/
def expand_rle : List Nat → List Bool
  | [] => []
  | x :: xs => rle_decode_byte x ++ expand_rle xs

theorem runExt_le (b : Bool) (cap : Nat) (xs : List Bool) :
    runExt b cap xs ≤ min cap xs.length := by
  induction xs generalizing cap with
  | nil => cases cap <;> simp [runExt]
  | cons x xs ih =>
    cases cap with
    | zero => simp [runExt]
    | succ c =>
      simp only [runExt]
      by_cases hx : x = b
      · rw [if_pos hx]
        have := ih c
        simp only [List.length_cons]
        omega
      · rw [if_neg hx]
        omega

theorem runExt_take (b : Bool) (cap : Nat) (xs : List Bool) :
    xs.take (runExt b cap xs) = List.replicate (runExt b cap xs) b := by
  induction xs generalizing cap with
  | nil => cases cap <;> simp [runExt]
  | cons x xs ih =>
    cases cap with
    | zero => simp [runExt]
    | succ c =>
      simp only [runExt]
      by_cases hx : x = b
      · rw [if_pos hx, List.take_succ_cons, ih c, List.replicate_succ, hx]
      · rw [if_neg hx]
        simp

theorem rle_decode_byte_run (b : Bool) (count : Nat) (h1 : 1 ≤ count)
    (h2 : count ≤ 127) :
    rle_decode_byte ((if b then 128 else 0) + count) = List.replicate count b := by
  cases b with
  | false =>
    rw [show (if (false : Bool) = true then 128 else 0) = 0 from rfl, Nat.zero_add]
    simp only [rle_decode_byte]
    rw [Nat.mod_eq_of_lt (by omega)]
    congr 1
    simp only [decide_eq_false_iff_not]
    omega
  | true =>
    rw [show (if (true : Bool) = true then 128 else 0) = 128 from rfl]
    simp only [rle_decode_byte]
    rw [show (128 + count) % 128 = count from by omega]
    congr 1
    simp only [decide_eq_true_eq]
    omega

/-- Round-trip with an explicit length budget, for the induction. -/
theorem expand_rle_encode_rle_bounded (n : Nat) :
    ∀ bits : List Bool, bits.length ≤ n →
      expand_rle (encode_rle_go n bits) = bits := by
  induction n with
  | zero =>
    intro bits h
    match bits with
    | [] => simp [encode_rle_go, expand_rle]
  | succ n ih =>
    intro bits h
    match bits with
    | [] => simp [encode_rle_go, expand_rle]
    | b :: rest =>
      rw [encode_rle_go]
      simp only [expand_rle]
      have hext := runExt_le b 126 rest
      have hlen : (rest.drop (1 + runExt b 126 rest - 1)).length ≤ n := by
        simp only [List.length_drop]
        simp only [List.length_cons] at h
        omega
      rw [ih _ hlen]
      rw [rle_decode_byte_run b _ (by omega) (by omega)]
      have htk := runExt_take b 126 rest
      rw [show 1 + runExt b 126 rest - 1 = runExt b 126 rest from by omega,
        show 1 + runExt b 126 rest = runExt b 126 rest + 1 from by omega,
        List.replicate_succ, List.cons_append]
      rw [← htk, List.take_append_drop]

/-- Claim support: the RLE codec round-trips on every bitstring. -/
theorem expand_rle_encode_rle (bits : List Bool) :
    expand_rle (encode_rle bits) = bits :=
  expand_rle_encode_rle_bounded bits.length bits le_rfl


/-! ## The dictionary lookup tree (`dicttree_t`, `construct_tree`,
`walk_tree` in encode.cc).  `nil` stands for a null child pointer; a
fresh `dicttree_t` has `index = -1` and `ref = false`. -/

inductive Dicttree where
  | nil : Dicttree
  | node (index : Int) (ref : Bool) (zero one : Dicttree) : Dicttree
deriving DecidableEq, Repr

/-- The `index` field; a null pointer behaves like an unclaimed node. -/
def Dicttree.idx : Dicttree → Int
  | .nil => -1
  | .node i _ _ _ => i

/-- The `ref` field. -/
def Dicttree.rf : Dicttree → Bool
  | .nil => false
  | .node _ r _ _ => r

/-- `walk(b)`: the child pointer selected by one bit. -/
def Dicttree.child : Dicttree → Bool → Dicttree
  | .nil, _ => .nil
  | .node _ _ z o, b => if b then o else z

/-- The inner loop of `construct_tree` for one dictionary entry: descend
along the replacement bits creating missing nodes, then claim the final
node (set its index and ref) if it is still unclaimed.  Returns the new
tree and whether the claim happened (the C++ `i++`). -/
def insertPath (idx : Int) (rf : Bool) : List Bool → Dicttree → Dicttree × Bool
  | [], .nil => (.node idx rf .nil .nil, true)
  | [], .node i r z o =>
    if i < 0 then (.node idx rf z o, true) else (.node i r z o, false)
  | b :: p, .nil =>
    if b then
      let res := insertPath idx rf p .nil
      (.node (-1) false .nil res.1, res.2)
    else
      let res := insertPath idx rf p .nil
      (.node (-1) false res.1 .nil, res.2)
  | b :: p, .node i r z o =>
    if b then
      let res := insertPath idx rf p o
      (.node i r z res.1, res.2)
    else
      let res := insertPath idx rf p z
      (.node i r res.1 o, res.2)

/-- The root before the dictionary entries are added: hardcoded children
for the single bits, with indices 0 and 1. -/
def rootTree : Dicttree :=
  .node (-1) false (.node 0 false .nil .nil) (.node 1 false .nil .nil)

/-- The fold of `construct_tree` over the (sorted) dictionary; the
counter is the C++ `i`, bumped only when an entry claims a node. -/
def insertEntries : List Dictentry → Dicttree → Nat → Dicttree × Nat
  | [], t, i => (t, i)
  | d :: ds, t, i =>
    let res := insertPath ((i + 4 : Nat) : Int) d.ref_encode d.replacement t
    insertEntries ds res.1 (if res.2 then i + 1 else i)

/-- `construct_tree`. -/
def construct_tree (dictionary : List Dictentry) : Dicttree :=
  (insertEntries dictionary rootTree 0).1

/-- The loop of `walk_tree`: walk the remaining bits, remembering the
deepest claimed node that passes the mode filter.  `len` is the number
of bits consumed so far, `best` the `(best_length, index)` pair. -/
def walk_tree_aux : Dicttree → List Bool → Bool → Nat → Nat × Int → Nat × Int
  | _, [], _, _, best => best
  | t, b :: rest, is_glyph, len, best =>
    match t.child b with
    | .nil => best
    | .node i r z o =>
      walk_tree_aux (.node i r z o) rest is_glyph (len + 1)
        (if (is_glyph || !r) && 0 ≤ i then (len + 1, i) else best)

/-- `walk_tree`: returns `(best_length, index)`; `index < 0` is the
state in which the C++ throws `logic_error`. -/
def walk_tree (t : Dicttree) (bits : List Bool) (is_glyph : Bool) : Nat × Int :=
  walk_tree_aux t bits is_glyph 0 (0, -1)

/-! ## Reference codec (`encode_ref` in encode.cc) -/

/-- The end position after stripping trailing zero bits (the `while
(end > 0 && bits.at(end - 1) != true) end--;` loop of `encode_ref`). -/
def rtrim_len (bits : List Bool) : Nat :=
  (bits.reverse.dropWhile (fun b => !b)).length

/-- The `while (i < end)` loop of `encode_ref`: repeatedly take the
greedy longest match and append its index.  Returns the refstring and
the final position `i`.  `none` models the `logic_error` thrown by
`walk_tree` when no match exists (proved unreachable for trees built by
`construct_tree`); the guard on a zero-length match is equivalent, since
`walk_tree` sets a non-negative index and a positive length together. -/
def encode_ref_loop (t : Dicttree) (bits : List Bool) (is_glyph : Bool)
    (endp : Nat) : Nat → Nat → List Nat → Option (List Nat × Nat)
  | 0, i, acc => if i < endp then none else some (acc, i)
  | fuel + 1, i, acc =>
    if i < endp then
      if (walk_tree t (bits.drop i) is_glyph).2 < 0 then none
      else if (walk_tree t (bits.drop i) is_glyph).1 = 0 then none
      else
        encode_ref_loop t bits is_glyph endp fuel
          (i + (walk_tree t (bits.drop i) is_glyph).1)
          (acc ++ [(walk_tree t (bits.drop i) is_glyph).2.toNat])
    else some (acc, i)

/-- `encode_ref`: trim trailing zeros for glyphs, emit greedy matches,
and append the blank-fill opcode 2 when the emitted matches do not
already cover the whole bitstring. -/
def encode_ref (bits : List Bool) (t : Dicttree) (is_glyph : Bool) :
    Option (List Nat) :=
  let endp := if is_glyph then rtrim_len bits else bits.length
  match encode_ref_loop t bits is_glyph endp endp 0 [] with
  | none => none
  | some (res, i) => some (if i < bits.length then res ++ [2] else res)

/-! ## Encoder driver (`cmp_dict_coding`, `encode_font`) -/

/-- `cmp_dict_coding`: RLE entries sort before ref entries, empty
entries last. -/
def cmp_dict_coding (a b : Dictentry) : Bool :=
  if a.replacement.length = 0 && b.replacement.length != 0 then false
  else if a.replacement.length != 0 && b.replacement.length = 0 then true
  else if !a.ref_encode && b.ref_encode then true
  else false

/-- The sort key of the strict weak order underlying `cmp_dict_coding`:
non-empty RLE entries, then non-empty ref entries, then empty entries
(RLE-flagged before ref-flagged). -/
def sort_key (d : Dictentry) : Nat :=
  (if d.replacement.isEmpty then 2 else 0) + (if d.ref_encode then 1 else 0)

/-- `std::stable_sort` with `cmp_dict_coding`: since the comparator is
the strict weak order of `sort_key` (see `cmp_dict_coding_eq_key_lt`),
a stable sort is exactly the concatenation of the equivalence classes
in key order, each keeping its original relative order. -/
def stable_sort_dict (l : List Dictentry) : List Dictentry :=
  l.filter (fun d => sort_key d = 0) ++ l.filter (fun d => sort_key d = 1) ++
    l.filter (fun d => sort_key d = 2) ++ l.filter (fun d => sort_key d = 3)

/-- The comparator is the strict order on the four-valued key. -/
theorem cmp_dict_coding_eq_key_lt (a b : Dictentry) :
    cmp_dict_coding a b = decide (sort_key a < sort_key b) := by
  simp only [cmp_dict_coding, sort_key]
  rcases a with ⟨ra, fa, sa⟩
  rcases b with ⟨rb, fb, sb⟩
  rcases ra with _ | ⟨x, ra⟩ <;> rcases rb with _ | ⟨y, rb⟩ <;>
    cases fa <;> cases fb <;> simp

/-- Emission of the dictionary sections: the loop over the sorted
entries in `encode_font`, skipping empty entries, ref-encoding
ref-flagged entries and RLE-encoding the rest. -/
def encode_dict_entries (t : Dicttree) :
    List Dictentry → Option (List (List Nat) × List (List Nat))
  | [] => some ([], [])
  | d :: ds =>
    if d.replacement.isEmpty then encode_dict_entries t ds
    else if d.ref_encode then
      match encode_ref d.replacement t false, encode_dict_entries t ds with
      | some s, some (rles, refs) => some (rles, s :: refs)
      | _, _ => none
    else
      match encode_dict_entries t ds with
      | some (rles, refs) => some (encode_rle d.replacement :: rles, refs)
      | none => none

/-- Emission of the glyph section. -/
def encode_glyphs (t : Dicttree) : List Glyphentry → Option (List (List Nat))
  | [] => some []
  | g :: gs =>
    match encode_ref g.data t true, encode_glyphs t gs with
    | some s, some rest => some (s :: rest)
    | _, _ => none

/-- `encode_font`. -/
def encode_font (datafile : DataFile) : Option EncodedFont :=
  let sorted := stable_sort_dict datafile.dictionary
  let t := construct_tree sorted
  match encode_dict_entries t sorted, encode_glyphs t datafile.glyphs with
  | some (rles, refs), some gs =>
    some ⟨rles, refs, gs⟩
  | _, _ => none

/-! ## Size estimator (`get_encoded_size`) -/

/-- Bytes contributed by one dictionary byte string: its length plus a
two-byte offset table entry when non-empty. -/
def size_dictstring (r : List Nat) : Nat :=
  r.length + (if r.length = 0 then 0 else 2)

/-- `get_encoded_size` on an `encoded_font_t`: dictionary strings plus,
per glyph, the refstring, a two-byte offset entry and a width byte. -/
def get_encoded_size (e : EncodedFont) : Nat :=
  (e.rle_dictionary.map size_dictstring).sum +
    (e.ref_dictionary.map size_dictstring).sum +
    (e.glyphs.map (fun r => r.length + 3)).sum

/-! ## Decoder (`decode_glyph`) -/

/-- `std::vector::resize(n, false)`: truncate or pad with `false`. -/
def resizeList (l : List Bool) (n : Nat) : List Bool :=
  l.take n ++ List.replicate (n - l.length) false

/-- One pass of `decode_glyph` over a refstring, parameterized by the
expansion used for ref-dictionary entries (the recursive call of the
C++ function).  `acc` is the output vector built so far; `none` models
an out-of-range `.at` access or a failing recursive expansion. -/
def decode_refstring_aux (e : EncodedFont) (fi : Fontinfo)
    (dec : List Nat → Option (List Bool)) :
    List Nat → List Bool → Option (List Bool)
  | [], acc => some acc
  | r :: rest, acc =>
    if r = 0 then decode_refstring_aux e fi dec rest (acc ++ [false])
    else if r = 1 then decode_refstring_aux e fi dec rest (acc ++ [true])
    else if r = 2 then
      decode_refstring_aux e fi dec rest
        (resizeList acc (fi.max_width * fi.max_height))
    else if r = 3 then decode_refstring_aux e fi dec rest acc
    else if r - 4 < e.rle_dictionary.length then
      decode_refstring_aux e fi dec rest
        (acc ++ expand_rle (e.rle_dictionary.getD (r - 4) []))
    else
      match e.ref_dictionary.get? (r - 4 - e.rle_dictionary.length) with
      | none => none
      | some s =>
        match dec s with
        | none => none
        | some part => decode_refstring_aux e fi dec rest (acc ++ part)

/-- `decode_glyph` on a refstring, with an explicit recursion budget for
the recursive expansion of ref-dictionary entries (the C++ recursion is
unbounded; exhausted budget gives `none`). -/
def decode_refstring (e : EncodedFont) (fi : Fontinfo) :
    Nat → List Nat → List Bool → Option (List Bool)
  | 0, refs, acc => decode_refstring_aux e fi (fun _ => none) refs acc
  | fuel + 1, refs, acc =>
    decode_refstring_aux e fi (fun s => decode_refstring e fi fuel s [])
      refs acc

/-- `decode_glyph` for a glyph index. -/
def decode_glyph (e : EncodedFont) (index : Nat) (fi : Fontinfo)
    (fuel : Nat) : Option (List Bool) :=
  decode_refstring e fi fuel (e.glyphs.getD index []) []


/-! ## Tree lemmas: lookup by path, and how `insertPath` changes it -/

/-- Follow a bit path down the tree. -/
def lookupNode : Dicttree → List Bool → Dicttree
  | t, [] => t
  | t, b :: p => lookupNode (t.child b) p

@[simp] theorem lookupNode_nil_path (t : Dicttree) : lookupNode t [] = t := rfl

@[simp] theorem lookupNode_cons (t : Dicttree) (b : Bool) (p : List Bool) :
    lookupNode t (b :: p) = lookupNode (t.child b) p := rfl

@[simp] theorem child_nil (b : Bool) : Dicttree.nil.child b = .nil := rfl

@[simp] theorem child_node (i : Int) (r : Bool) (z o : Dicttree) (b : Bool) :
    (Dicttree.node i r z o).child b = if b then o else z := rfl

@[simp] theorem lookupNode_of_nil (q : List Bool) :
    lookupNode .nil q = .nil := by
  induction q with
  | nil => rfl
  | cons b p ih => simp [ih]

@[simp] theorem idx_nil : Dicttree.nil.idx = -1 := rfl

@[simp] theorem rf_nil : Dicttree.nil.rf = false := rfl

@[simp] theorem idx_node (i : Int) (r : Bool) (z o : Dicttree) :
    (Dicttree.node i r z o).idx = i := rfl

@[simp] theorem rf_node (i : Int) (r : Bool) (z o : Dicttree) :
    (Dicttree.node i r z o).rf = r := rfl

theorem insertPath_nil_nil (idx : Int) (rf : Bool) :
    insertPath idx rf [] .nil = (.node idx rf .nil .nil, true) := rfl

theorem insertPath_nil_node (idx : Int) (rf : Bool) (i : Int) (r : Bool)
    (z o : Dicttree) :
    insertPath idx rf [] (.node i r z o) =
      if i < 0 then (.node idx rf z o, true) else (.node i r z o, false) := rfl

theorem insertPath_cons_nil (idx : Int) (rf : Bool) (b : Bool) (p : List Bool) :
    insertPath idx rf (b :: p) .nil =
      (if b then Dicttree.node (-1) false .nil (insertPath idx rf p .nil).1
       else Dicttree.node (-1) false (insertPath idx rf p .nil).1 .nil,
       (insertPath idx rf p .nil).2) := by
  cases b <;> rfl

theorem insertPath_cons_node (idx : Int) (rf : Bool) (b : Bool) (p : List Bool)
    (i : Int) (r : Bool) (z o : Dicttree) :
    insertPath idx rf (b :: p) (.node i r z o) =
      (if b then Dicttree.node i r z (insertPath idx rf p o).1
       else Dicttree.node i r (insertPath idx rf p z).1 o,
       (insertPath idx rf p (if b then o else z)).2) := by
  cases b <;> rfl

/-- Inserting along path `p` leaves the index and ref flag at every
other path unchanged (nodes created on the way are unclaimed, which a
null pointer already represents). -/
theorem insertPath_lookup_ne (idx : Int) (rf : Bool) (p : List Bool) :
    ∀ (t : Dicttree) (q : List Bool), q ≠ p →
      (lookupNode (insertPath idx rf p t).1 q).idx = (lookupNode t q).idx ∧
        (lookupNode (insertPath idx rf p t).1 q).rf = (lookupNode t q).rf := by
  induction p with
  | nil =>
    intro t q hq
    match q with
    | [] => exact absurd rfl hq
    | c :: q =>
      match t with
      | .nil =>
        rw [insertPath_nil_nil]
        cases c <;> simp
      | .node i r z o =>
        rw [insertPath_nil_node]
        by_cases hi : i < 0
        · rw [if_pos hi]; simp
        · rw [if_neg hi]; simp
  | cons b p ih =>
    intro t q hq
    match q with
    | [] =>
      match t with
      | .nil => rw [insertPath_cons_nil]; cases b <;> simp
      | .node i r z o => rw [insertPath_cons_node]; cases b <;> simp
    | c :: q =>
      match t with
      | .nil =>
        rw [insertPath_cons_nil]
        cases b <;> cases c <;> simp
        · simpa using ih .nil q (by intro h; exact hq (by rw [h]))
        · simpa using ih .nil q (by intro h; exact hq (by rw [h]))
      | .node i r z o =>
        rw [insertPath_cons_node]
        cases b <;> cases c <;> simp
        · simpa using ih z q (by intro h; exact hq (by rw [h]))
        · simpa using ih o q (by intro h; exact hq (by rw [h]))

/-- What `insertPath` does at the inserted path itself: claim the node
when it is unclaimed (index set, ref flag set, counter bumped), leave it
alone otherwise. -/
theorem insertPath_lookup_at (idx : Int) (rf : Bool) (p : List Bool) :
    ∀ t : Dicttree,
      (if (lookupNode t p).idx < 0 then
        (lookupNode (insertPath idx rf p t).1 p).idx = idx ∧
          (lookupNode (insertPath idx rf p t).1 p).rf = rf ∧
          (insertPath idx rf p t).2 = true
      else
        (lookupNode (insertPath idx rf p t).1 p).idx = (lookupNode t p).idx ∧
          (lookupNode (insertPath idx rf p t).1 p).rf = (lookupNode t p).rf ∧
          (insertPath idx rf p t).2 = false) := by
  induction p with
  | nil =>
    intro t
    match t with
    | .nil =>
      rw [insertPath_nil_nil]
      simp
    | .node i r z o =>
      rw [insertPath_nil_node]
      by_cases hi : i < 0
      · rw [if_pos hi]
        simp [hi]
      · rw [if_neg hi]
        simp [hi]
  | cons b p ih =>
    intro t
    match t with
    | .nil =>
      rw [insertPath_cons_nil]
      have h0 : (lookupNode Dicttree.nil (b :: p)).idx < 0 := by simp
      rw [if_pos h0]
      have := ih .nil
      rw [if_pos (by simp)] at this
      cases b <;> simpa using this
    | .node i r z o =>
      rw [insertPath_cons_node]
      cases b
      · simpa using ih z
      · simpa using ih o


/-! ## `walk_tree` correctness -/

theorem lookupNode_append_bit (t : Dicttree) (q : List Bool) (b : Bool) :
    lookupNode t (q ++ [b]) = (lookupNode t q).child b := by
  induction q generalizing t with
  | nil => rfl
  | cons c q ih => simp [ih]

/-- A valid `(best_length, index)` pair for a walk over `full`: it names
a claimed node at the prefix of that length, and outside glyph mode the
node is not ref-flagged. -/
def WalkOk (t0 : Dicttree) (g : Bool) (full : List Bool)
    (best : Nat × Int) : Prop :=
  1 ≤ best.1 ∧ best.1 ≤ full.length ∧
    (lookupNode t0 (full.take best.1)).idx = best.2 ∧
    (g = false → (lookupNode t0 (full.take best.1)).rf = false)

theorem walk_tree_aux_cons (t : Dicttree) (b : Bool) (rest : List Bool)
    (g : Bool) (len : Nat) (best : Nat × Int) :
    walk_tree_aux t (b :: rest) g len best =
      match t.child b with
      | .nil => best
      | .node i r z o =>
        walk_tree_aux (.node i r z o) rest g (len + 1)
          (if (g || !r) && 0 ≤ i then (len + 1, i) else best) := rfl

theorem walk_tree_aux_cons_of_nil (t : Dicttree) (b : Bool) (rest : List Bool)
    (g : Bool) (len : Nat) (best : Nat × Int) (h : t.child b = .nil) :
    walk_tree_aux t (b :: rest) g len best = best := by
  rw [walk_tree_aux_cons, h]

theorem walk_tree_aux_cons_of_node (t : Dicttree) (b : Bool)
    (rest : List Bool) (g : Bool) (len : Nat) (best : Nat × Int) (i : Int)
    (r : Bool) (z o : Dicttree) (h : t.child b = .node i r z o) :
    walk_tree_aux t (b :: rest) g len best =
      walk_tree_aux (.node i r z o) rest g (len + 1)
        (if (g || !r) && 0 ≤ i then (len + 1, i) else best) := by
  rw [walk_tree_aux_cons, h]

theorem walk_aux_sound (t0 : Dicttree) (g : Bool) :
    ∀ (bits pre : List Bool) (best : Nat × Int),
      best.1 ≤ pre.length →
      (0 ≤ best.2 → WalkOk t0 g (pre ++ bits) best) →
      0 ≤ (walk_tree_aux (lookupNode t0 pre) bits g pre.length best).2 →
      WalkOk t0 g (pre ++ bits)
        (walk_tree_aux (lookupNode t0 pre) bits g pre.length best) := by
  intro bits
  induction bits with
  | nil =>
    intro pre best _hb hok hres
    simpa [walk_tree_aux] using hok (by simpa [walk_tree_aux] using hres)
  | cons b rest ih =>
    intro pre best hb hok hres
    have hchild : (lookupNode t0 pre).child b = lookupNode t0 (pre ++ [b]) :=
      (lookupNode_append_bit t0 pre b).symm
    cases hc : (lookupNode t0 pre).child b with
    | nil =>
      rw [walk_tree_aux_cons_of_nil _ _ _ _ _ _ hc] at hres ⊢
      exact hok hres
    | node i r z o =>
      rw [walk_tree_aux_cons_of_node _ _ _ _ _ _ _ _ _ _ hc] at hres ⊢
      have hnode : lookupNode t0 (pre ++ [b]) = .node i r z o := by
        rw [← hchild, hc]
      have hassoc : pre ++ b :: rest = (pre ++ [b]) ++ rest := by simp
      rw [hassoc] at hok ⊢
      set best2 := if (g || !r) && 0 ≤ i then (pre.length + 1, i) else best
        with hbest2
      have h2b : best2.1 ≤ (pre ++ [b]).length := by
        rw [hbest2]
        by_cases hcond : ((g || !r) && decide (0 ≤ i)) = true
        · rw [if_pos hcond]; simp
        · rw [if_neg hcond]; simp; omega
      have h2ok : 0 ≤ best2.2 → WalkOk t0 g ((pre ++ [b]) ++ rest) best2 := by
        intro hpos
        rw [hbest2]
        by_cases hcond : ((g || !r) && decide (0 ≤ i)) = true
        · rw [if_pos hcond]
          refine ⟨by simp, by simp, ?_, ?_⟩
          · rw [show pre.length + 1 = (pre ++ [b]).length from by simp,
              List.take_left, hnode]
            simp
          · intro hg
            rw [show pre.length + 1 = (pre ++ [b]).length from by simp,
              List.take_left, hnode]
            simp only [Bool.and_eq_true, Bool.or_eq_true] at hcond
            rcases hcond.1 with h | h
            · rw [hg] at h; exact absurd h (by simp)
            · simpa using h
        · rw [if_neg hcond]
          rw [hbest2, if_neg hcond] at hpos
          exact hok hpos
      have hstep := ih (pre ++ [b]) best2 h2b h2ok
      rw [hnode, show (pre ++ [b]).length = pre.length + 1 from by simp]
        at hstep
      exact hstep hres

/-- Soundness of `walk_tree`: a non-negative result indexes a claimed
node sitting exactly at the consumed prefix. -/
theorem walk_tree_sound (t : Dicttree) (bits : List Bool) (g : Bool)
    (h : 0 ≤ (walk_tree t bits g).2) :
    WalkOk t g bits (walk_tree t bits g) := by
  have := walk_aux_sound t g bits [] (0, -1) (by simp)
    (by intro h0; exact absurd h0 (by simp))
  simpa [walk_tree] using this (by simpa [walk_tree] using h)

theorem walk_aux_idx_ge (t : Dicttree) (bits : List Bool) (g : Bool)
    (len : Nat) (best : Nat × Int) (h : 0 ≤ best.2) :
    0 ≤ (walk_tree_aux t bits g len best).2 := by
  induction bits generalizing t len best with
  | nil => simpa [walk_tree_aux] using h
  | cons b rest ih =>
    cases hc : t.child b with
    | nil =>
      rw [walk_tree_aux_cons_of_nil _ _ _ _ _ _ hc]
      exact h
    | node i r z o =>
      rw [walk_tree_aux_cons_of_node _ _ _ _ _ _ _ _ _ _ hc]
      apply ih
      by_cases hcond : ((g || !r) && decide (0 ≤ i)) = true
      · rw [if_pos hcond]
        simp only [Bool.and_eq_true, decide_eq_true_eq] at hcond
        exact hcond.2
      · rw [if_neg hcond]; exact h

theorem walk_aux_len_ge (t : Dicttree) (bits : List Bool) (g : Bool)
    (len : Nat) (best : Nat × Int) (h : best.1 ≤ len) :
    best.1 ≤ (walk_tree_aux t bits g len best).1 := by
  induction bits generalizing t len best with
  | nil => exact le_rfl
  | cons b rest ih =>
    cases hc : t.child b with
    | nil =>
      rw [walk_tree_aux_cons_of_nil _ _ _ _ _ _ hc]
    | node i r z o =>
      rw [walk_tree_aux_cons_of_node _ _ _ _ _ _ _ _ _ _ hc]
      by_cases hcond : ((g || !r) && decide (0 ≤ i)) = true
      · rw [if_pos hcond]
        have := ih (.node i r z o) (len + 1) (len + 1, i) le_rfl
        simp only at this
        omega
      · rw [if_neg hcond]
        exact ih (.node i r z o) (len + 1) best (by omega)

/-- The two hardcoded single-bit children of the root. -/
def RootKids (t : Dicttree) : Prop :=
  (lookupNode t [false]).idx = 0 ∧ (lookupNode t [false]).rf = false ∧
    (lookupNode t [true]).idx = 1 ∧ (lookupNode t [true]).rf = false

theorem RootKids_insertPath (idx : Int) (rf : Bool) (p : List Bool)
    (t : Dicttree) (h : RootKids t) : RootKids (insertPath idx rf p t).1 := by
  obtain ⟨h1, h2, h3, h4⟩ := h
  have hq : ∀ q : List Bool, 0 ≤ (lookupNode t q).idx →
      (lookupNode (insertPath idx rf p t).1 q).idx = (lookupNode t q).idx ∧
        (lookupNode (insertPath idx rf p t).1 q).rf = (lookupNode t q).rf := by
    intro q hpos
    by_cases hqp : q = p
    · subst hqp
      have := insertPath_lookup_at idx rf q t
      rw [if_neg (by omega)] at this
      exact ⟨this.1, this.2.1⟩
    · exact insertPath_lookup_ne idx rf p t q hqp
  have k0 := hq [false] (by rw [h1])
  have k1 := hq [true] (by rw [h3]; decide)
  exact ⟨by rw [k0.1, h1], by rw [k0.2, h2], by rw [k1.1, h3], by rw [k1.2, h4]⟩

theorem RootKids_insertEntries :
    ∀ (ds : List Dictentry) (t : Dicttree) (i : Nat), RootKids t →
      RootKids (insertEntries ds t i).1 := by
  intro ds
  induction ds with
  | nil => intro t i h; exact h
  | cons d ds ih =>
    intro t i h
    rw [insertEntries]
    exact ih _ _ (RootKids_insertPath _ _ _ _ h)

theorem RootKids_rootTree : RootKids rootTree := by
  refine ⟨?_, ?_, ?_, ?_⟩ <;> rfl

theorem RootKids_construct_tree (dict : List Dictentry) :
    RootKids (construct_tree dict) :=
  RootKids_insertEntries dict rootTree 0 RootKids_rootTree

/-- Claim C5 support: on any tree built by `construct_tree`, a walk over
a non-empty bit range always finds a match of length at least one, for
both values of `is_glyph` — the `logic_error` branch is unreachable. -/
theorem walk_tree_construct_pos (dict : List Dictentry) (bits : List Bool)
    (g : Bool) (h : bits ≠ []) :
    0 ≤ (walk_tree (construct_tree dict) bits g).2 ∧
      1 ≤ (walk_tree (construct_tree dict) bits g).1 := by
  match bits with
  | b :: rest =>
    obtain ⟨h1, h2, h3, h4⟩ := RootKids_construct_tree dict
    set t := construct_tree dict with ht
    have hchild : ∀ c : Bool, lookupNode t [c] = t.child c := by
      intro c; rfl
    rw [walk_tree]
    cases hc : t.child b with
    | nil =>
      exfalso
      cases b
      · rw [hchild false, hc] at h1; simp at h1
      · rw [hchild true, hc] at h3; simp at h3
    | node i r z o =>
      have hir : 0 ≤ i ∧ r = false := by
        cases b
        · rw [hchild false, hc] at h1 h2
          simp at h1 h2
          exact ⟨by omega, h2⟩
        · rw [hchild true, hc] at h3 h4
          simp at h3 h4
          exact ⟨by omega, h4⟩
      rw [walk_tree_aux_cons_of_node _ _ _ _ _ _ _ _ _ _ hc]
      have hcond : ((g || !r) && decide (0 ≤ i)) = true := by
        simp [hir.1, hir.2]
      rw [if_pos hcond]
      refine ⟨walk_aux_idx_ge _ _ _ _ _ hir.1, ?_⟩
      have := walk_aux_len_ge (.node i r z o) rest g (0 + 1) (0 + 1, i) le_rfl
      simpa using this

/-! ## Index-range invariants of `construct_tree` (claims C3, C4) -/

theorem insertEntries_append (l1 l2 : List Dictentry) :
    ∀ (t : Dicttree) (i : Nat),
      insertEntries (l1 ++ l2) t i =
        insertEntries l2 (insertEntries l1 t i).1 (insertEntries l1 t i).2 := by
  induction l1 with
  | nil => intro t i; rfl
  | cons d l1 ih =>
    intro t i
    rw [List.cons_append, insertEntries, insertEntries]
    exact ih _ _

/-- Every node below the root has index `-1`, `0`, `1` or in `[4, 3+n]`. -/
def IdxOkAll (t : Dicttree) (n : Nat) : Prop :=
  ∀ q : List Bool, q ≠ [] →
    (lookupNode t q).idx = -1 ∨ (lookupNode t q).idx = 0 ∨
      (lookupNode t q).idx = 1 ∨
      (4 ≤ (lookupNode t q).idx ∧ (lookupNode t q).idx ≤ 3 + (n : Int))

/-- The same bound restricted to nodes whose ref flag is clear. -/
def IdxOkNonref (t : Dicttree) (m : Nat) : Prop :=
  ∀ q : List Bool, q ≠ [] → (lookupNode t q).rf = false →
    (lookupNode t q).idx = -1 ∨ (lookupNode t q).idx = 0 ∨
      (lookupNode t q).idx = 1 ∨
      (4 ≤ (lookupNode t q).idx ∧ (lookupNode t q).idx ≤ 3 + (m : Int))

theorem IdxOkAll_mono (t : Dicttree) (n n' : Nat) (h : n ≤ n')
    (ha : IdxOkAll t n) : IdxOkAll t n' := by
  intro q hq
  rcases ha q hq with h1 | h1 | h1 | h1
  · exact Or.inl h1
  · exact Or.inr (Or.inl h1)
  · exact Or.inr (Or.inr (Or.inl h1))
  · refine Or.inr (Or.inr (Or.inr ⟨h1.1, ?_⟩))
    have := h1.2
    omega

theorem IdxOkNonref_mono (t : Dicttree) (m m' : Nat) (h : m ≤ m')
    (ha : IdxOkNonref t m) : IdxOkNonref t m' := by
  intro q hq hr
  rcases ha q hq hr with h1 | h1 | h1 | h1
  · exact Or.inl h1
  · exact Or.inr (Or.inl h1)
  · exact Or.inr (Or.inr (Or.inl h1))
  · refine Or.inr (Or.inr (Or.inr ⟨h1.1, ?_⟩))
    have := h1.2
    omega

/-- The counter moves up by at most one per entry. -/
theorem insertEntries_counter_le :
    ∀ (ds : List Dictentry) (t : Dicttree) (i : Nat),
      (insertEntries ds t i).2 ≤ i + ds.length := by
  intro ds
  induction ds with
  | nil => intro t i; exact Nat.le_refl i
  | cons d ds ih =>
    intro t i
    rw [insertEntries]
    have h1 := ih (insertPath ((i + 4 : Nat) : Int) d.ref_encode
      d.replacement t).1
      (if (insertPath ((i + 4 : Nat) : Int) d.ref_encode d.replacement t).2
        then i + 1 else i)
    have h2 : (if (insertPath ((i + 4 : Nat) : Int) d.ref_encode
        d.replacement t).2 then i + 1 else i) ≤ i + 1 := by
      split <;> omega
    simp only [List.length_cons]
    omega

/-- Inserting entries with counter at most `n` keeps all sub-root
indices at most `3 + n + (number of entries)`. -/
theorem insertEntries_bound_all :
    ∀ (ds : List Dictentry) (t : Dicttree) (i n : Nat), i ≤ n →
      IdxOkAll t n →
      (insertEntries ds t i).2 ≤ n + ds.length ∧
        IdxOkAll (insertEntries ds t i).1 (n + ds.length) := by
  intro ds
  induction ds with
  | nil =>
    intro t i n hin ha
    exact ⟨by simpa using hin, by simpa using ha⟩
  | cons d ds ih =>
    intro t i n hin ha
    rw [insertEntries]
    have ha2 : IdxOkAll
        (insertPath ((i + 4 : Nat) : Int) d.ref_encode d.replacement t).1
        (n + 1) := by
      intro q hq
      by_cases hqp : q = d.replacement
      · subst hqp
        have hat := insertPath_lookup_at ((i + 4 : Nat) : Int) d.ref_encode
          d.replacement t
        by_cases hcl : (lookupNode t d.replacement).idx < 0
        · rw [if_pos hcl] at hat
          rw [hat.1]
          refine Or.inr (Or.inr (Or.inr ⟨by omega, by omega⟩))
        · rw [if_neg hcl] at hat
          rw [hat.1]
          exact IdxOkAll_mono t n (n + 1) (by omega) ha _ hq
      · have hne := insertPath_lookup_ne ((i + 4 : Nat) : Int) d.ref_encode
          d.replacement t q hqp
        rw [hne.1]
        exact IdxOkAll_mono t n (n + 1) (by omega) ha _ hq
    have hi2 : (if (insertPath ((i + 4 : Nat) : Int) d.ref_encode
        d.replacement t).2 then i + 1 else i) ≤ n + 1 := by
      split <;> omega
    have := ih _ _ (n + 1) hi2 ha2
    refine ⟨?_, ?_⟩
    · have h1 := this.1
      simp only [List.length_cons]
      omega
    · have h2 := this.2
      simp only [List.length_cons]
      rw [show n + (ds.length + 1) = n + 1 + ds.length from by omega]
      exact h2

/-- Inserting only ref-flagged or empty entries never adds a clear-flag
node below the root, so the non-ref bound is untouched. -/
theorem insertEntries_bound_nonref :
    ∀ (ds : List Dictentry) (t : Dicttree) (i m : Nat),
      (∀ d ∈ ds, d.ref_encode = true ∨ d.replacement = []) →
      IdxOkNonref t m →
      IdxOkNonref (insertEntries ds t i).1 m := by
  intro ds
  induction ds with
  | nil => intro t i m _ hr; simpa using hr
  | cons d ds ih =>
    intro t i m hds hr
    rw [insertEntries]
    apply ih _ _ m (fun d2 h2 => hds d2 (List.mem_cons_of_mem d h2))
    intro q hq hrf
    rcases hds d (List.mem_cons_self d ds) with hd | hd
    · by_cases hqp : q = d.replacement
      · subst hqp
        have hat := insertPath_lookup_at ((i + 4 : Nat) : Int) d.ref_encode
          d.replacement t
        by_cases hcl : (lookupNode t d.replacement).idx < 0
        · rw [if_pos hcl] at hat
          rw [hat.2.1, hd] at hrf
          exact absurd hrf (by simp)
        · rw [if_neg hcl] at hat
          rw [hat.1]
          exact hr _ hq (by rw [← hat.2.1]; exact hrf)
      · have hne := insertPath_lookup_ne ((i + 4 : Nat) : Int) d.ref_encode
          d.replacement t q hqp
        rw [hne.1]
        exact hr _ hq (by rw [← hne.2]; exact hrf)
    · have hqp : q ≠ d.replacement := by rw [hd]; exact hq
      have hne := insertPath_lookup_ne ((i + 4 : Nat) : Int) d.ref_encode
        d.replacement t q hqp
      rw [hne.1]
      exact hr _ hq (by rw [← hne.2]; exact hrf)

/-- Inserting only empty entries touches nothing below the root. -/
theorem insertEntries_empty_lookup :
    ∀ (ds : List Dictentry) (t : Dicttree) (i : Nat),
      (∀ d ∈ ds, d.replacement = []) →
      ∀ q : List Bool, q ≠ [] →
        (lookupNode (insertEntries ds t i).1 q).idx = (lookupNode t q).idx ∧
          (lookupNode (insertEntries ds t i).1 q).rf = (lookupNode t q).rf := by
  intro ds
  induction ds with
  | nil => intro t i _ q _; exact ⟨rfl, rfl⟩
  | cons d ds ih =>
    intro t i hds q hq
    rw [insertEntries]
    have hqp : q ≠ d.replacement := by
      rw [hds d (List.mem_cons_self d ds)]; exact hq
    have hne := insertPath_lookup_ne ((i + 4 : Nat) : Int) d.ref_encode
      d.replacement t q hqp
    have := ih
      (insertPath ((i + 4 : Nat) : Int) d.ref_encode d.replacement t).1
      (if (insertPath ((i + 4 : Nat) : Int) d.ref_encode
        d.replacement t).2 then i + 1 else i)
      (fun d2 h2 => hds d2 (List.mem_cons_of_mem d h2)) q hq
    exact ⟨by rw [this.1, hne.1], by rw [this.2, hne.2]⟩

/-! ## The sorted dictionary: group structure -/

theorem sort_key_eq_zero_iff (d : Dictentry) :
    sort_key d = 0 ↔ d.replacement ≠ [] ∧ d.ref_encode = false := by
  rcases d with ⟨r, f, s⟩
  rcases r with _ | ⟨x, r⟩ <;> cases f <;> simp [sort_key]

theorem sort_key_eq_one_iff (d : Dictentry) :
    sort_key d = 1 ↔ d.replacement ≠ [] ∧ d.ref_encode = true := by
  rcases d with ⟨r, f, s⟩
  rcases r with _ | ⟨x, r⟩ <;> cases f <;> simp [sort_key]

theorem sort_key_ge_two_iff (d : Dictentry) :
    2 ≤ sort_key d ↔ d.replacement = [] := by
  rcases d with ⟨r, f, s⟩
  rcases r with _ | ⟨x, r⟩ <;> cases f <;> simp [sort_key]

/-- Shorthand for the four groups of the sorted dictionary. -/
def keyGroup (k : Nat) (l : List Dictentry) : List Dictentry :=
  l.filter (fun d => sort_key d = k)

theorem stable_sort_dict_eq_groups (l : List Dictentry) :
    stable_sort_dict l =
      keyGroup 0 l ++ keyGroup 1 l ++ (keyGroup 2 l ++ keyGroup 3 l) := by
  simp [stable_sort_dict, keyGroup, List.append_assoc]

theorem mem_keyGroup_zero (l : List Dictentry) (d : Dictentry)
    (h : d ∈ keyGroup 0 l) : d.replacement ≠ [] ∧ d.ref_encode = false := by
  have := List.of_mem_filter h
  exact (sort_key_eq_zero_iff d).1 (by simpa using this)

theorem mem_keyGroup_one (l : List Dictentry) (d : Dictentry)
    (h : d ∈ keyGroup 1 l) : d.replacement ≠ [] ∧ d.ref_encode = true := by
  have := List.of_mem_filter h
  exact (sort_key_eq_one_iff d).1 (by simpa using this)

theorem mem_keyGroup_empty (l : List Dictentry) (d : Dictentry) (k : Nat)
    (hk : 2 ≤ k) (h : d ∈ keyGroup k l) : d.replacement = [] := by
  have := List.of_mem_filter h
  have hkd : sort_key d = k := by simpa using this
  exact (sort_key_ge_two_iff d).1 (by omega)

/-- `IdxOkAll` and `IdxOkNonref` hold of the bare root. -/
theorem rootTree_IdxOkAll (n : Nat) : IdxOkAll rootTree n := by
  intro q hq
  match q with
  | [b] => cases b <;> simp [rootTree]
  | b :: c :: q => cases b <;> cases c <;> simp [rootTree]

theorem IdxOkNonref_of_all (t : Dicttree) (n : Nat) (h : IdxOkAll t n) :
    IdxOkNonref t n :=
  fun q hq _ => h q hq

/-- Bounds after the three insertion phases: arbitrary entries, then
ref-or-empty entries, then empty entries. -/
theorem insertEntries_three_phase (A B C : List Dictentry)
    (hB : ∀ d ∈ B, d.ref_encode = true ∨ d.replacement = [])
    (hC : ∀ d ∈ C, d.replacement = []) :
    IdxOkAll (insertEntries (A ++ B ++ C) rootTree 0).1
        (A.length + B.length) ∧
      IdxOkNonref (insertEntries (A ++ B ++ C) rootTree 0).1 A.length := by
  rw [insertEntries_append, insertEntries_append]
  have boundA := insertEntries_bound_all A rootTree 0 0 le_rfl
    (rootTree_IdxOkAll 0)
  generalize hA : insertEntries A rootTree 0 = pA
  rw [hA] at boundA
  have cntA : pA.2 ≤ A.length := by
    have := boundA.1
    omega
  have allA : IdxOkAll pA.1 A.length :=
    IdxOkAll_mono _ _ _ (by omega) boundA.2
  have nonrefA : IdxOkNonref pA.1 A.length := IdxOkNonref_of_all _ _ allA
  have boundB := insertEntries_bound_all B pA.1 pA.2 A.length cntA allA
  have nonrefB := insertEntries_bound_nonref B pA.1 pA.2 A.length hB nonrefA
  generalize hBq : insertEntries B pA.1 pA.2 = pB
  rw [hBq] at boundB nonrefB
  have hCq := insertEntries_empty_lookup C pB.1 pB.2 hC
  constructor
  · intro q hq
    rw [(hCq q hq).1]
    exact boundB.2 q hq
  · intro q hq hrf
    rw [(hCq q hq).1]
    exact nonrefB q hq (by rw [← (hCq q hq).2]; exact hrf)

/-- The master bound for `construct_tree` on the sorted dictionary: all
matchable indices lie in `{-1,0,1} ∪ [4, 3+R+F]`, and matchable non-ref
indices in `{-1,0,1} ∪ [4, 3+R]`, where `R` and `F` count the non-empty
RLE and ref entries. -/
theorem construct_tree_bound (dict : List Dictentry) :
    IdxOkAll (construct_tree (stable_sort_dict dict))
        ((keyGroup 0 dict).length + (keyGroup 1 dict).length) ∧
      IdxOkNonref (construct_tree (stable_sort_dict dict))
        (keyGroup 0 dict).length := by
  have hsplit : stable_sort_dict dict =
      keyGroup 0 dict ++ keyGroup 1 dict ++
        (keyGroup 2 dict ++ keyGroup 3 dict) := by
    simp [stable_sort_dict, keyGroup, List.append_assoc]
  rw [construct_tree, hsplit]
  apply insertEntries_three_phase
  · intro d hd
    exact Or.inl (mem_keyGroup_one dict d hd).2
  · intro d hd
    rcases List.mem_append.1 hd with h | h
    · exact mem_keyGroup_empty dict d 2 le_rfl h
    · exact mem_keyGroup_empty dict d 3 (by omega) h

/-! ## Trailing-zero trim -/

theorem rtrim_len_le (bits : List Bool) : rtrim_len bits ≤ bits.length := by
  have := (List.dropWhile_sublist (l := bits.reverse)
    (fun b => !b)).length_le
  simpa [rtrim_len] using this

theorem rtrim_decomp (bits : List Bool) :
    bits = bits.take (rtrim_len bits) ++
      List.replicate (bits.length - rtrim_len bits) false := by
  have hsplit := List.takeWhile_append_dropWhile
    (p := fun b => !b) (l := bits.reverse)
  have htw : bits.reverse.takeWhile (fun b => !b) =
      List.replicate (bits.reverse.takeWhile (fun b => !b)).length false := by
    apply List.eq_replicate_of_mem
    intro b hb
    have := List.mem_takeWhile_imp hb
    simpa using this
  have hlen : (bits.reverse.takeWhile (fun b => !b)).length =
      bits.length - rtrim_len bits := by
    have h1 : (bits.reverse.takeWhile (fun b => !b)).length +
        (bits.reverse.dropWhile (fun b => !b)).length =
        bits.length := by
      rw [← List.length_append, hsplit, List.length_reverse]
    have h2 := rtrim_len_le bits
    simp only [rtrim_len] at h2 ⊢
    omega
  have hrlen : ((bits.reverse.dropWhile (fun b => !b)).reverse).length =
      rtrim_len bits := by
    simp [rtrim_len]
  have hrev : bits = (bits.reverse.dropWhile (fun b => !b)).reverse ++
      List.replicate (bits.length - rtrim_len bits) false := by
    conv_lhs => rw [← List.reverse_reverse bits, ← hsplit]
    rw [List.reverse_append]
    congr 1
    rw [htw, hlen, List.reverse_replicate]
  generalize hA : (bits.reverse.dropWhile (fun b => !b)).reverse = A
    at hrlen hrev
  have htake : bits.take (rtrim_len bits) = A := by
    rw [← hrlen]
    conv_lhs => rw [hrev]
    exact List.take_left A _
  rw [htake]
  exact hrev

theorem rtrim_drop_false (bits : List Bool) (k : Nat)
    (h : rtrim_len bits ≤ k) :
    bits.drop k = List.replicate (bits.length - k) false := by
  have hr := rtrim_len_le bits
  have hlenA : (bits.take (rtrim_len bits)).length = rtrim_len bits := by
    rw [List.length_take]
    omega
  conv_lhs => rw [rtrim_decomp bits]
  rw [List.drop_append_eq_append_drop,
    List.drop_of_length_le (by rw [hlenA]; omega), List.drop_replicate]
  simp only [List.nil_append]
  congr 1
  rw [hlenA]
  omega

/-! ## The encode_ref loop: success and a generic code-by-code
property (the walk always succeeds on `construct_tree` trees, each
emitted index is the index of the matched prefix, and any property of
the emitted codes that composes under concatenation can be pushed
through the loop). -/

theorem encode_ref_loop_spec (dict : List Dictentry) (bits : List Bool)
    (g : Bool) (endp : Nat) (P : List Nat → List Bool → Prop)
    (hPapp : ∀ c1 s1 c2 s2, P c1 s1 → P c2 s2 → P (c1 ++ c2) (s1 ++ s2))
    (hPnil : P [] [])
    (hPone : ∀ i : Nat, i < endp →
      0 ≤ (walk_tree (construct_tree (stable_sort_dict dict))
        (bits.drop i) g).2 →
      P [(walk_tree (construct_tree (stable_sort_dict dict))
          (bits.drop i) g).2.toNat]
        ((bits.drop i).take
          (walk_tree (construct_tree (stable_sort_dict dict))
            (bits.drop i) g).1))
    (hend : endp ≤ bits.length) :
    ∀ (fuel i : Nat) (acc : List Nat), endp - i ≤ fuel → i ≤ bits.length →
      ∃ (codes : List Nat) (ifin : Nat),
        encode_ref_loop (construct_tree (stable_sort_dict dict)) bits g endp
            fuel i acc = some (acc ++ codes, ifin) ∧
          i ≤ ifin ∧ ifin ≤ bits.length ∧ endp ≤ ifin ∧
          P codes ((bits.drop i).take (ifin - i)) := by
  intro fuel
  induction fuel with
  | zero =>
    intro i acc hn hi
    have hge : ¬ i < endp := by omega
    rw [encode_ref_loop, if_neg hge]
    refine ⟨[], i, by simp, le_rfl, hi, by omega, by simpa using hPnil⟩
  | succ fuel ih =>
    intro i acc hn hi
    by_cases hlt : i < endp
    · have hne : bits.drop i ≠ [] := by
        intro hcon
        have := congrArg List.length hcon
        simp only [List.length_drop, List.length_nil] at this
        omega
      have hpos := walk_tree_construct_pos (stable_sort_dict dict)
        (bits.drop i) g hne
      have hsound := walk_tree_sound (construct_tree (stable_sort_dict dict))
        (bits.drop i) g hpos.1
      have hlen_le : (walk_tree (construct_tree (stable_sort_dict dict))
          (bits.drop i) g).1 ≤ bits.length - i := by
        have := hsound.2.1
        simpa using this
      rw [encode_ref_loop, if_pos hlt, if_neg (by omega), if_neg (by omega)]
      set len := (walk_tree (construct_tree (stable_sort_dict dict))
        (bits.drop i) g).1 with hlendef
      have hstep := ih (i + len) (acc ++ [(walk_tree
          (construct_tree (stable_sort_dict dict)) (bits.drop i) g).2.toNat])
        (by omega) (by omega)
      obtain ⟨codes, ifin, heq, h1, h2, h3, hP⟩ := hstep
      refine ⟨(walk_tree (construct_tree (stable_sort_dict dict))
        (bits.drop i) g).2.toNat :: codes, ifin, ?_, by omega, h2, h3, ?_⟩
      · rw [heq]
        congr 1
        rw [List.append_assoc]
        rfl
      · have hone := hPone i hlt hpos.1
        have happ := hPapp _ _ _ _ hone hP
        have hsplitslice : (bits.drop i).take len ++
            ((bits.drop (i + len)).take (ifin - (i + len))) =
            (bits.drop i).take (ifin - i) := by
          have hdd : bits.drop (i + len) = (bits.drop i).drop len := by
            rw [List.drop_drop]
          rw [hdd, ← List.take_add]
          congr 1
          omega
        rw [← hsplitslice]
        simpa using happ
    · rw [encode_ref_loop, if_neg hlt]
      refine ⟨[], i, by simp, le_rfl, hi, by omega, by simpa using hPnil⟩

/-! ## `encode_ref` on `construct_tree` trees -/

/-- `encode_ref` always succeeds on a tree built by `construct_tree`,
with the loop consuming at least the trimmed range and at most the whole
bitstring; the generic property `P` collects over the emitted matches. -/
theorem encode_ref_cases (dict : List Dictentry) (bits : List Bool)
    (g : Bool) (P : List Nat → List Bool → Prop)
    (hPapp : ∀ c1 s1 c2 s2, P c1 s1 → P c2 s2 → P (c1 ++ c2) (s1 ++ s2))
    (hPnil : P [] [])
    (hPone : ∀ i : Nat, i < (if g then rtrim_len bits else bits.length) →
      0 ≤ (walk_tree (construct_tree (stable_sort_dict dict))
        (bits.drop i) g).2 →
      P [(walk_tree (construct_tree (stable_sort_dict dict))
          (bits.drop i) g).2.toNat]
        ((bits.drop i).take
          (walk_tree (construct_tree (stable_sort_dict dict))
            (bits.drop i) g).1)) :
    ∃ (codes : List Nat) (ifin : Nat),
      encode_ref bits (construct_tree (stable_sort_dict dict)) g =
          some (if ifin < bits.length then codes ++ [2] else codes) ∧
        (if g then rtrim_len bits else bits.length) ≤ ifin ∧
        ifin ≤ bits.length ∧ P codes (bits.take ifin) := by
  have hend : (if g then rtrim_len bits else bits.length) ≤ bits.length := by
    split
    · exact rtrim_len_le bits
    · exact le_rfl
  obtain ⟨codes, ifin, heq, _h1, h2, h3, hP⟩ :=
    encode_ref_loop_spec dict bits g
      (if g then rtrim_len bits else bits.length) P hPapp hPnil hPone hend
      (if g then rtrim_len bits else bits.length) 0 [] (by omega) (by omega)
  refine ⟨codes, ifin, ?_, h3, h2, by simpa using hP⟩
  rw [List.nil_append] at heq
  simp only [encode_ref]
  rw [heq]

/-! ## Emission structure of `encode_font` -/

theorem encode_dict_entries_append_some (t : Dicttree) :
    ∀ (l1 l2 : List Dictentry) (r1 f1 r2 f2 : List (List Nat)),
      encode_dict_entries t l1 = some (r1, f1) →
      encode_dict_entries t l2 = some (r2, f2) →
      encode_dict_entries t (l1 ++ l2) = some (r1 ++ r2, f1 ++ f2) := by
  intro l1
  induction l1 with
  | nil =>
    intro l2 r1 f1 r2 f2 h1 h2
    rw [encode_dict_entries] at h1
    injection h1 with h1
    injection h1 with ha hb
    subst ha
    subst hb
    simpa using h2
  | cons d l1 ih =>
    intro l2 r1 f1 r2 f2 h1 h2
    rw [encode_dict_entries] at h1
    rw [List.cons_append, encode_dict_entries]
    by_cases hemp : d.replacement.isEmpty
    · rw [if_pos hemp] at h1 ⊢
      exact ih l2 r1 f1 r2 f2 h1 h2
    · rw [if_neg hemp] at h1 ⊢
      by_cases href : d.ref_encode
      · rw [if_pos href] at h1 ⊢
        match hs : encode_ref d.replacement t false,
            hrest : encode_dict_entries t l1 with
        | some s, some (rles, refs) =>
          rw [hs, hrest] at h1
          injection h1 with h1
          injection h1 with ha hb
          subst ha
          subst hb
          rw [ih l2 rles refs r2 f2 hrest h2]
          simp
        | some s, none =>
          rw [hs, hrest] at h1
          exact absurd h1 (by simp)
        | none, _ =>
          rw [hs] at h1
          exact absurd h1 (by simp)
      · rw [if_neg href] at h1 ⊢
        match hrest : encode_dict_entries t l1 with
        | some (rles, refs) =>
          rw [hrest] at h1
          injection h1 with h1
          injection h1 with ha hb
          subst ha
          subst hb
          rw [ih l2 rles refs r2 f2 hrest h2]
          simp
        | none =>
          rw [hrest] at h1
          exact absurd h1 (by simp)

/-- The RLE group emits exactly the RLE encodings, in order. -/
theorem encode_dict_entries_rle_group (t : Dicttree) :
    ∀ l : List Dictentry, (∀ d ∈ l, d.replacement ≠ [] ∧
        d.ref_encode = false) →
      encode_dict_entries t l =
        some (l.map (fun d => encode_rle d.replacement), []) := by
  intro l
  induction l with
  | nil => intro _; rfl
  | cons d l ih =>
    intro h
    have hd := h d (List.mem_cons_self d l)
    have hemp : d.replacement.isEmpty = false := by
      cases hrep : d.replacement with
      | nil => exact absurd hrep hd.1
      | cons x xs => rfl
    rw [encode_dict_entries, if_neg (by rw [hemp]; simp),
      if_neg (by rw [hd.2]; simp),
      ih (fun d2 h2 => h d2 (List.mem_cons_of_mem d h2))]
    simp

/-- The ref group emits one refstring per entry, in order, provided each
entry ref-encodes successfully. -/
theorem encode_dict_entries_ref_group (t : Dicttree) :
    ∀ l : List Dictentry, (∀ d ∈ l, d.replacement ≠ [] ∧
        d.ref_encode = true) →
      (∀ d ∈ l, ∃ s, encode_ref d.replacement t false = some s) →
      ∃ refs : List (List Nat), encode_dict_entries t l = some ([], refs) ∧
        refs.length = l.length ∧
        ∀ (j : Nat) (hj : j < l.length),
          encode_ref (l.get ⟨j, hj⟩).replacement t false =
            some (refs.getD j []) := by
  intro l
  induction l with
  | nil =>
    intro _ _
    exact ⟨[], rfl, rfl, fun j hj => absurd hj (by simp)⟩
  | cons d l ih =>
    intro h hsome
    have hd := h d (List.mem_cons_self d l)
    obtain ⟨s, hs⟩ := hsome d (List.mem_cons_self d l)
    obtain ⟨refs, hrefs, hlen, hget⟩ :=
      ih (fun d2 h2 => h d2 (List.mem_cons_of_mem d h2))
        (fun d2 h2 => hsome d2 (List.mem_cons_of_mem d h2))
    have hemp : d.replacement.isEmpty = false := by
      cases hrep : d.replacement with
      | nil => exact absurd hrep hd.1
      | cons x xs => rfl
    refine ⟨s :: refs, ?_, by simp [hlen], ?_⟩
    · rw [encode_dict_entries, if_neg (by rw [hemp]; simp),
        if_pos hd.2, hs, hrefs]
    · intro j hj
      match j with
      | 0 => simpa using hs
      | j + 1 =>
        have := hget j (by simpa using hj)
        simpa using this

/-- Empty entries emit nothing. -/
theorem encode_dict_entries_empty_group (t : Dicttree) :
    ∀ l : List Dictentry, (∀ d ∈ l, d.replacement = []) →
      encode_dict_entries t l = some ([], []) := by
  intro l
  induction l with
  | nil => intro _; rfl
  | cons d l ih =>
    intro h
    have hd := h d (List.mem_cons_self d l)
    rw [encode_dict_entries, if_pos (by rw [hd]; rfl)]
    exact ih (fun d2 h2 => h d2 (List.mem_cons_of_mem d h2))

/-- The glyph section emits one refstring per glyph, in order. -/
theorem encode_glyphs_spec (t : Dicttree) :
    ∀ gs : List Glyphentry,
      (∀ g ∈ gs, ∃ s, encode_ref g.data t true = some s) →
      ∃ out : List (List Nat), encode_glyphs t gs = some out ∧
        out.length = gs.length ∧
        ∀ (j : Nat) (hj : j < gs.length),
          encode_ref (gs.get ⟨j, hj⟩).data t true = some (out.getD j []) := by
  intro gs
  induction gs with
  | nil =>
    intro _
    exact ⟨[], rfl, rfl, fun j hj => absurd hj (by simp)⟩
  | cons g gs ih =>
    intro hsome
    obtain ⟨s, hs⟩ := hsome g (List.mem_cons_self g gs)
    obtain ⟨out, hout, hlen, hget⟩ :=
      ih (fun g2 h2 => hsome g2 (List.mem_cons_of_mem g h2))
    refine ⟨s :: out, ?_, by simp [hlen], ?_⟩
    · rw [encode_glyphs, hs, hout]
    · intro j hj
      match j with
      | 0 => simpa using hs
      | j + 1 =>
        have := hget j (by simpa using hj)
        simpa using this

theorem encode_ref_total (dict : List Dictentry) (bits : List Bool)
    (g : Bool) :
    ∃ s, encode_ref bits (construct_tree (stable_sort_dict dict)) g =
      some s := by
  obtain ⟨codes, ifin, heq, _, _, _⟩ := encode_ref_cases dict bits g
    (fun _ _ => True) (fun _ _ _ _ _ _ => trivial) trivial
    (fun _ _ _ => trivial)
  exact ⟨_, heq⟩

/-- What `encode_font` emits: the RLE section is the RLE group in
order, the ref section ref-encodes the ref group in order, and the
glyph section ref-encodes the glyphs in order. -/
theorem encode_font_spec (df : DataFile) :
    ∃ e : EncodedFont, encode_font df = some e ∧
      e.rle_dictionary =
        (keyGroup 0 df.dictionary).map (fun d => encode_rle d.replacement) ∧
      e.ref_dictionary.length = (keyGroup 1 df.dictionary).length ∧
      (∀ (j : Nat) (hj : j < (keyGroup 1 df.dictionary).length),
        encode_ref ((keyGroup 1 df.dictionary).get ⟨j, hj⟩).replacement
          (construct_tree (stable_sort_dict df.dictionary)) false =
          some (e.ref_dictionary.getD j [])) ∧
      e.glyphs.length = df.glyphs.length ∧
      (∀ (j : Nat) (hj : j < df.glyphs.length),
        encode_ref (df.glyphs.get ⟨j, hj⟩).data
          (construct_tree (stable_sort_dict df.dictionary)) true =
          some (e.glyphs.getD j [])) := by
  have hrle := encode_dict_entries_rle_group
    (construct_tree (stable_sort_dict df.dictionary))
    (keyGroup 0 df.dictionary)
    (fun d hd => mem_keyGroup_zero df.dictionary d hd)
  obtain ⟨refs, hrefs, hrlen, hrget⟩ := encode_dict_entries_ref_group
    (construct_tree (stable_sort_dict df.dictionary))
    (keyGroup 1 df.dictionary)
    (fun d hd => mem_keyGroup_one df.dictionary d hd)
    (fun d _ => encode_ref_total df.dictionary d.replacement false)
  have hempty := encode_dict_entries_empty_group
    (construct_tree (stable_sort_dict df.dictionary))
    (keyGroup 2 df.dictionary ++ keyGroup 3 df.dictionary)
    (by
      intro d hd
      rcases List.mem_append.1 hd with h | h
      · exact mem_keyGroup_empty df.dictionary d 2 le_rfl h
      · exact mem_keyGroup_empty df.dictionary d 3 (by omega) h)
  have h01 := encode_dict_entries_append_some
    (construct_tree (stable_sort_dict df.dictionary))
    (keyGroup 0 df.dictionary) (keyGroup 1 df.dictionary)
    ((keyGroup 0 df.dictionary).map (fun d => encode_rle d.replacement)) []
    [] refs hrle hrefs
  have hall := encode_dict_entries_append_some
    (construct_tree (stable_sort_dict df.dictionary))
    (keyGroup 0 df.dictionary ++ keyGroup 1 df.dictionary)
    (keyGroup 2 df.dictionary ++ keyGroup 3 df.dictionary)
    ((keyGroup 0 df.dictionary).map (fun d => encode_rle d.replacement) ++ [])
    ([] ++ refs) [] [] h01 hempty
  have hdict : encode_dict_entries
      (construct_tree (stable_sort_dict df.dictionary))
      (stable_sort_dict df.dictionary) =
      some ((keyGroup 0 df.dictionary).map
        (fun d => encode_rle d.replacement), refs) := by
    nth_rewrite 2 [stable_sort_dict_eq_groups df.dictionary]
    simpa using hall
  obtain ⟨gs, hgs, hglen, hgget⟩ := encode_glyphs_spec
    (construct_tree (stable_sort_dict df.dictionary)) df.glyphs
    (fun g _ => encode_ref_total df.dictionary g.data true)
  refine ⟨⟨(keyGroup 0 df.dictionary).map (fun d => encode_rle d.replacement),
    refs, gs⟩, ?_, rfl, hrlen, ?_, hglen, ?_⟩
  · simp only [encode_font]
    rw [hdict, hgs]
  · intro j hj
    exact hrget j hj
  · intro j hj
    exact hgget j hj

/-! ## Claim theorems: C5 and C6 -/

/-- C5: for every tree built by `construct_tree` (from any dictionary)
and every non-empty range of bits, `walk_tree` returns a non-negative
index and consumes at least one bit, for both values of `is_glyph`: the
no-match `logic_error` branch is unreachable, because the root always
carries the two hardcoded single-bit children with indices 0 and 1 and
a clear ref flag. -/
theorem C5_walk_tree_total (dict : List Dictentry) (bits : List Bool)
    (g : Bool) (h : bits ≠ []) :
    0 ≤ (walk_tree (construct_tree dict) bits g).2 ∧
      1 ≤ (walk_tree (construct_tree dict) bits g).1 :=
  walk_tree_construct_pos dict bits g h

theorem C5_walk_tree_total_witness :
    ([true] : List Bool) ≠ [] ∧
      (0 ≤ (walk_tree (construct_tree []) [true] true).2 ∧
        1 ≤ (walk_tree (construct_tree []) [true] true).1) :=
  ⟨by decide, C5_walk_tree_total [] [true] true (by decide)⟩

/-- C6: the RLE codec round-trips on every bitstring (each emitted byte
carries the pixel value in bit 7 and the run length in the low seven
bits, and the decoder expands exactly those runs); concretely the
bitstring 11100 encodes to the bytes 0x83 0x02, which decode back to
11100. -/
theorem C6_rle_roundtrip :
    (∀ bits : List Bool, expand_rle (encode_rle bits) = bits) ∧
      encode_rle [true, true, true, false, false] = [0x83, 0x02] ∧
      expand_rle [0x83, 0x02] = [true, true, true, false, false] :=
  ⟨expand_rle_encode_rle, by decide, by decide⟩

/-! ## Claims C3 and C4: index discipline and acyclicity -/

theorem getD_eq_get_of_lt (l : List (List Nat)) (j : Nat)
    (hj : j < l.length) : l.getD j [] = l.get ⟨j, hj⟩ := by
  simp [List.getD_eq_getElem?_getD, List.getElem?_eq_getElem hj]

/-- Every refstring emitted by `encode_ref` over the sorted-dictionary
tree has its codes in `{0,1,2} ∪ [4, 3+R+F]`; with `is_glyph = false`
the loop covers the whole bitstring (no opcode 2) and the codes stay in
`{0,1} ∪ [4, 3+R]`. -/
theorem encode_ref_codes_range (dict : List Dictentry) (bits : List Bool)
    (g : Bool) :
    ∃ s : List Nat,
      encode_ref bits (construct_tree (stable_sort_dict dict)) g = some s ∧
        (∀ c ∈ s, c = 0 ∨ c = 1 ∨ c = 2 ∨
          (4 ≤ c ∧ c ≤ 3 + ((keyGroup 0 dict).length +
            (keyGroup 1 dict).length))) ∧
        (g = false → ∀ c ∈ s, c = 0 ∨ c = 1 ∨
          (4 ≤ c ∧ c ≤ 3 + (keyGroup 0 dict).length)) := by
  have hbound := construct_tree_bound dict
  obtain ⟨codes, ifin, heq, hge, hle, hP⟩ := encode_ref_cases dict bits g
    (fun cs _ => ∀ c ∈ cs, (c = 0 ∨ c = 1 ∨
      (4 ≤ c ∧ c ≤ 3 + ((keyGroup 0 dict).length +
        (keyGroup 1 dict).length))) ∧
      (g = false → c = 0 ∨ c = 1 ∨ (4 ≤ c ∧ c ≤ 3 +
        (keyGroup 0 dict).length)))
    (by
      intro c1 s1 c2 s2 h1 h2 c hc
      rcases List.mem_append.1 hc with h | h
      · exact h1 c h
      · exact h2 c h)
    (by intro c hc; exact absurd hc (List.not_mem_nil c))
    (by
      intro i hi hwpos c hc
      have hsound := walk_tree_sound
        (construct_tree (stable_sort_dict dict)) (bits.drop i) g hwpos
      rw [List.mem_singleton] at hc
      subst hc
      have hqlen : ((bits.drop i).take
          (walk_tree (construct_tree (stable_sort_dict dict))
            (bits.drop i) g).1).length =
          (walk_tree (construct_tree (stable_sort_dict dict))
            (bits.drop i) g).1 := by
        rw [List.length_take]
        have := hsound.2.1
        omega
      have hqne : (bits.drop i).take
          (walk_tree (construct_tree (stable_sort_dict dict))
            (bits.drop i) g).1 ≠ [] := by
        intro hcon
        rw [hcon] at hqlen
        have := hsound.1
        simp at hqlen
        omega
      have hidx := hsound.2.2.1
      constructor
      · rcases hbound.1 _ hqne with h | h | h | h <;> rw [hidx] at h
        · omega
        · left; omega
        · right; left; omega
        · right; right
          constructor <;> omega
      · intro hgf
        have hrf := hsound.2.2.2 hgf
        rcases hbound.2 _ hqne hrf with h | h | h | h <;> rw [hidx] at h
        · omega
        · left; omega
        · right; left; omega
        · right; right
          constructor <;> omega)
  refine ⟨if ifin < bits.length then codes ++ [2] else codes, heq, ?_, ?_⟩
  · intro c hc
    by_cases hf : ifin < bits.length
    · rw [if_pos hf] at hc
      rcases List.mem_append.1 hc with h | h
      · rcases (hP c h).1 with h1 | h1 | h1
        · exact Or.inl h1
        · exact Or.inr (Or.inl h1)
        · exact Or.inr (Or.inr (Or.inr h1))
      · rw [List.mem_singleton] at h
        exact Or.inr (Or.inr (Or.inl h))
    · rw [if_neg hf] at hc
      rcases (hP c hc).1 with h1 | h1 | h1
      · exact Or.inl h1
      · exact Or.inr (Or.inl h1)
      · exact Or.inr (Or.inr (Or.inr h1))
  · intro hgf c hc
    have hifin : ¬ ifin < bits.length := by
      rw [hgf] at hge
      simp at hge
      omega
    rw [if_neg hifin] at hc
    exact (hP c hc).2 hgf

/-- C3: in every refstring emitted by `encode_font` — glyph refstrings
and ref-dictionary refstrings — every reference byte lies in
`{0,1,2} ∪ [4, 3+R+F]`, where `R` and `F` are the lengths of the
emitted `rle_dictionary` and `ref_dictionary`; in particular the
encoder never emits the reserved code 3. -/
theorem C3_index_discipline (df : DataFile) (e : EncodedFont)
    (he : encode_font df = some e) :
    ∀ s : List Nat, s ∈ e.glyphs ∨ s ∈ e.ref_dictionary → ∀ c ∈ s,
      (c = 0 ∨ c = 1 ∨ c = 2 ∨
        (4 ≤ c ∧ c ≤ 3 + e.rle_dictionary.length +
          e.ref_dictionary.length)) ∧ c ≠ 3 := by
  obtain ⟨e2, he2, hrle, hreflen, href, hglen, hg⟩ := encode_font_spec df
  rw [he] at he2
  injection he2 with he2
  subst he2
  have hR : e.rle_dictionary.length = (keyGroup 0 df.dictionary).length := by
    rw [hrle, List.length_map]
  intro s hs c hc
  have hrange : (c = 0 ∨ c = 1 ∨ c = 2 ∨
      (4 ≤ c ∧ c ≤ 3 + ((keyGroup 0 df.dictionary).length +
        (keyGroup 1 df.dictionary).length))) := by
    rcases hs with hs | hs
    · obtain ⟨⟨j, hj⟩, hjs⟩ := List.mem_iff_get.1 hs
      have hj2 : j < df.glyphs.length := by omega
      have henc := hg j hj2
      obtain ⟨s2, hs2, hr2, _⟩ := encode_ref_codes_range df.dictionary
        (df.glyphs.get ⟨j, hj2⟩).data true
      rw [henc] at hs2
      injection hs2 with hs2
      rw [getD_eq_get_of_lt e.glyphs j hj, hjs] at hs2
      exact hr2 c (hs2 ▸ hc)
    · obtain ⟨⟨j, hj⟩, hjs⟩ := List.mem_iff_get.1 hs
      have hj2 : j < (keyGroup 1 df.dictionary).length := by omega
      have henc := href j hj2
      obtain ⟨s2, hs2, hr2, _⟩ := encode_ref_codes_range df.dictionary
        ((keyGroup 1 df.dictionary).get ⟨j, hj2⟩).replacement false
      rw [henc] at hs2
      injection hs2 with hs2
      rw [getD_eq_get_of_lt e.ref_dictionary j hj, hjs] at hs2
      exact hr2 c (hs2 ▸ hc)
  constructor
  · rcases hrange with h | h | h | h
    · exact Or.inl h
    · exact Or.inr (Or.inl h)
    · exact Or.inr (Or.inr (Or.inl h))
    · refine Or.inr (Or.inr (Or.inr ⟨h.1, ?_⟩))
      omega
  · rcases hrange with h | h | h | h <;> omega

/-- Decoding a refstring whose codes are all single bits or in-range
RLE references never fails and never recurses, whatever the budget. -/
theorem decode_refstring_aux_total (e : EncodedFont) (fi : Fontinfo)
    (dec : List Nat → Option (List Bool)) :
    ∀ s : List Nat,
      (∀ c ∈ s, c = 0 ∨ c = 1 ∨
        (4 ≤ c ∧ c ≤ 3 + e.rle_dictionary.length)) →
      ∀ acc : List Bool, ∃ out,
        decode_refstring_aux e fi dec s acc = some out := by
  intro s
  induction s with
  | nil => intro _ acc; exact ⟨acc, rfl⟩
  | cons c rest ih =>
    intro hs acc
    have hc := hs c (List.mem_cons_self c rest)
    have hrest := fun c2 h2 => hs c2 (List.mem_cons_of_mem c h2)
    rcases hc with h | h | h
    · subst h
      rw [decode_refstring_aux, if_pos rfl]
      exact ih hrest (acc ++ [false])
    · subst h
      rw [decode_refstring_aux, if_neg (by omega), if_pos rfl]
      exact ih hrest (acc ++ [true])
    · rw [decode_refstring_aux, if_neg (by omega), if_neg (by omega),
        if_neg (by omega), if_neg (by omega), if_pos (by omega)]
      exact ih hrest (acc ++ expand_rle (e.rle_dictionary.getD (c - 4) []))

/-- C4: every reference byte in every ref-dictionary refstring emitted
by `encode_font` is 0, 1, or a code pointing into the rle_dictionary
(in `[4, 3+R]`); consequently the reference graph is acyclic and
decoding any emitted ref-dictionary entry terminates — it succeeds
under every recursion budget, including zero. -/
theorem C4_ref_dictionary_flat (df : DataFile) (e : EncodedFont)
    (he : encode_font df = some e) :
    ∀ s ∈ e.ref_dictionary,
      (∀ c ∈ s, c = 0 ∨ c = 1 ∨
        (4 ≤ c ∧ c ≤ 3 + e.rle_dictionary.length)) ∧
      (∀ (fi : Fontinfo) (fuel : Nat) (acc : List Bool),
        ∃ out, decode_refstring e fi fuel s acc = some out) := by
  obtain ⟨e2, he2, hrle, hreflen, href, hglen, hg⟩ := encode_font_spec df
  rw [he] at he2
  injection he2 with he2
  subst he2
  have hR : e.rle_dictionary.length = (keyGroup 0 df.dictionary).length := by
    rw [hrle, List.length_map]
  intro s hs
  obtain ⟨⟨j, hj⟩, hjs⟩ := List.mem_iff_get.1 hs
  have hj2 : j < (keyGroup 1 df.dictionary).length := by omega
  have henc := href j hj2
  obtain ⟨s2, hs2, _, hflat⟩ := encode_ref_codes_range df.dictionary
    ((keyGroup 1 df.dictionary).get ⟨j, hj2⟩).replacement false
  rw [henc] at hs2
  injection hs2 with hs2
  rw [getD_eq_get_of_lt e.ref_dictionary j hj, hjs] at hs2
  subst hs2
  have hcodes : ∀ c ∈ s, c = 0 ∨ c = 1 ∨
      (4 ≤ c ∧ c ≤ 3 + e.rle_dictionary.length) := by
    intro c hc
    rcases hflat rfl c hc with h | h | h
    · exact Or.inl h
    · exact Or.inr (Or.inl h)
    · refine Or.inr (Or.inr ⟨h.1, ?_⟩)
      rw [hR]
      omega
  refine ⟨hcodes, ?_⟩
  intro fi fuel acc
  match fuel with
  | 0 =>
    exact decode_refstring_aux_total e fi (fun _ => none) s hcodes acc
  | fuel + 1 =>
    exact decode_refstring_aux_total e fi
      (fun s2 => decode_refstring e fi fuel s2 []) s hcodes acc

/-- Concrete font for the C3 witness: one 1x1 glyph, empty dictionary. -/
def C3df : DataFile := ⟨[⟨[true], 1⟩], [], ⟨1, 1⟩, 0⟩

/-- The encoding of `C3df`. -/
def C3e : EncodedFont := ⟨[], [], [[1]]⟩

theorem C3_index_discipline_witness :
    encode_font C3df = some C3e ∧
      ∀ s : List Nat, s ∈ C3e.glyphs ∨ s ∈ C3e.ref_dictionary → ∀ c ∈ s,
        (c = 0 ∨ c = 1 ∨ c = 2 ∨
          (4 ≤ c ∧ c ≤ 3 + C3e.rle_dictionary.length +
            C3e.ref_dictionary.length)) ∧ c ≠ 3 :=
  ⟨by decide, C3_index_discipline C3df C3e (by decide)⟩

/-- Concrete font for the C4 witness: one ref-flagged entry `10`. -/
def C4df : DataFile := ⟨[⟨[true], 1⟩], [⟨[true, false], true, 0⟩], ⟨1, 1⟩, 0⟩

/-- The encoding of `C4df`: the ref entry is emitted as `[1, 0]`. -/
def C4e : EncodedFont := ⟨[], [[1, 0]], [[1]]⟩

theorem C4_ref_dictionary_flat_witness :
    encode_font C4df = some C4e ∧
      ∀ s ∈ C4e.ref_dictionary,
        (∀ c ∈ s, c = 0 ∨ c = 1 ∨
          (4 ≤ c ∧ c ≤ 3 + C4e.rle_dictionary.length)) ∧
        (∀ (fi : Fontinfo) (fuel : Nat) (acc : List Bool),
          ∃ out, decode_refstring C4e fi fuel s acc = some out) :=
  ⟨by decide, C4_ref_dictionary_flat C4df C4e (by decide)⟩

/-! ## The optimizer (`src/optimize.cc`)

The RNG draws are explicit parameters: `std::uniform_int_distribution`
is implementation defined, so each theorem quantifies over every value
the draws could take.  The `DataFile` accessors live in datafile.cc,
which is not among the given sources; they are modelled from the spec
(§6.2). -/

/-- Modelled from the spec: a cleared dictionary slot, the
value-initialized `dictentry_t dummy = {}`. -/
def dummy_dictentry : Dictentry := ⟨[], false, 0⟩

/-- Modelled from the spec: `DataFile::dictionarysize` (`DICT_SIZE`),
252 slots so that indices fit one byte together with codes 0..3. -/
def dictionarysize : Nat := 252

/-- Modelled from the spec: `GetDictionaryEntry(i)`. -/
def getDictEntry (df : DataFile) (i : Nat) : Dictentry :=
  df.dictionary.getD i dummy_dictentry

/-- Modelled from the spec: `SetDictionaryEntry(i, entry)`. -/
def setDictEntry (df : DataFile) (i : Nat) (d : Dictentry) : DataFile :=
  { df with dictionary := df.dictionary.set i d }

/-- Modelled from the spec: the effective score of a slot —
`GetLowScoreIndex` treats empty slots as score 0. -/
def effScore (d : Dictentry) : Int :=
  if d.replacement.isEmpty then 0 else d.score

/-- Modelled from the spec: the scan of `GetLowScoreIndex()`. -/
def lowScoreIndexAux : List Dictentry → Nat → Nat → Int → Nat
  | [], _, bi, _ => bi
  | d :: ds, i, bi, bs =>
    if effScore d < bs then lowScoreIndexAux ds (i + 1) i (effScore d)
    else lowScoreIndexAux ds (i + 1) bi bs

/-- Modelled from the spec: `GetLowScoreIndex()` — the slot index with
the lowest score, empty slots treated as score 0. -/
def getLowScoreIndex (df : DataFile) : Nat :=
  match df.dictionary with
  | [] => 0
  | d :: ds => lowScoreIndexAux ds 1 0 (effScore d)

/-- Modelled from the spec: `SetSeed`. -/
def setSeed (df : DataFile) (s : Nat) : DataFile := { df with seed := s }

/-- `get_encoded_size` on a `DataFile` (the overload the operators
call): encode freshly and measure.  The encoder is total
(`encode_font_spec`), so the `none` default is never taken. -/
def encoded_size_df (df : DataFile) : Nat :=
  match encode_font df with
  | some e => get_encoded_size e
  | none => 0

/-- The accept-or-reject pattern shared by the single-slot operators:
write entry `d` to slot `index` of a trial copy, re-encode and measure,
and commit exactly that mutation (entry score set to the saving) only
on strict improvement. -/
def apply_trial (df : DataFile) (size : Nat) (index : Nat)
    (d : Dictentry) : DataFile × Nat :=
  let trial := setDictEntry df index d
  let newsize := encoded_size_df trial
  if newsize < size then
    (setDictEntry df index
      { d with score := (size : Int) - (newsize : Int) }, newsize)
  else (df, size)

/-- `optimize_worst`: replace the lowest-scoring slot with the drawn
substring `sub`. -/
def optimize_worst (df : DataFile) (size : Nat) (sub : BitString) :
    DataFile × Nat :=
  apply_trial df size (getLowScoreIndex df)
    { getDictEntry df (getLowScoreIndex df) with replacement := sub }

/-- `optimize_any`: replace the drawn slot with the drawn substring. -/
def optimize_any (df : DataFile) (size : Nat) (index : Nat)
    (sub : BitString) : DataFile × Nat :=
  apply_trial df size index
    { getDictEntry df index with replacement := sub }

/-- The expansion loop of `optimize_expand`: each drawn pair is one
iteration, (bit, prepend). -/
def expand_replacement (l : BitString) (ops : List (Bool × Bool)) :
    BitString :=
  ops.foldl (fun acc p => if p.2 then p.1 :: acc else acc ++ [p.1]) l

/-- `optimize_expand`: prepend or append drawn bits to the drawn slot
(`ops` stands for the `count ∈ [1,10]` drawn iterations). -/
def optimize_expand (df : DataFile) (size : Nat) (index : Nat)
    (ops : List (Bool × Bool)) : DataFile × Nat :=
  apply_trial df size index
    { getDictEntry df index with
      replacement := expand_replacement (getDictEntry df index).replacement ops }

/-- The erase steps of `optimize_trim`: `start` bits from the front,
then, via `erase(end() - end, end() - 1)`, the `end - 1` bits before
the final bit. -/
def trim_replacement (l : BitString) (s e : Nat) : BitString :=
  let l1 := if s ≠ 0 then l.drop s else l
  if e ≠ 0 then l1.take (l1.length - e) ++ l1.drop (l1.length - 1) else l1

/-- `optimize_trim`: skip slots of at most 2 bits, else trim with the
drawn `s` and `e`. -/
def optimize_trim (df : DataFile) (size : Nat) (index : Nat)
    (s e : Nat) : DataFile × Nat :=
  if (getDictEntry df index).replacement.length ≤ 2 then (df, size)
  else
    apply_trial df size index
      { getDictEntry df index with
        replacement := trim_replacement (getDictEntry df index).replacement s e }

/-- `optimize_refdict`: toggle the coding mode of the drawn slot. -/
def optimize_refdict (df : DataFile) (size : Nat) (index : Nat) :
    DataFile × Nat :=
  apply_trial df size index
    { getDictEntry df index with
      ref_encode := !(getDictEntry df index).ref_encode }

/-- `optimize_combine`: overwrite the worst slot with the concatenation
of two drawn slots, ref-encoded (the fresh `dictentry_t d` is
default-initialized, so the pre-accept score is 0). -/
def optimize_combine (df : DataFile) (size : Nat)
    (index1 index2 : Nat) : DataFile × Nat :=
  apply_trial df size (getLowScoreIndex df)
    { dummy_dictentry with
      replacement := (getDictEntry df index1).replacement ++
        (getDictEntry df index2).replacement,
      ref_encode := true }

/-- The per-round draws of the inner loop of `optimize_bigjump`. -/
structure InnerChoices where
  worst_sub : BitString
  any_index : Nat
  any_sub : BitString
  expand_index : Nat
  expand_ops : List (Bool × Bool)
  refdict_index : Nat
  combine_i1 : Nat
  combine_i2 : Nat
deriving DecidableEq, Repr

/-- One inner round of `optimize_bigjump`: worst, any, expand, refdict,
combine, each threading the running size. -/
def bigjump_inner (st : DataFile × Nat) (c : InnerChoices) :
    DataFile × Nat :=
  let s1 := optimize_worst st.1 st.2 c.worst_sub
  let s2 := optimize_any s1.1 s1.2 c.any_index c.any_sub
  let s3 := optimize_expand s2.1 s2.2 c.expand_index c.expand_ops
  let s4 := optimize_refdict s3.1 s3.2 c.refdict_index
  optimize_combine s4.1 s4.2 c.combine_i1 c.combine_i2

/-- One drop of `optimize_bigjump`: clear the slot's replacement and
score (keeping its mode flag, as the source does). -/
def clear_entry (df : DataFile) (index : Nat) : DataFile :=
  setDictEntry df index
    { getDictEntry df index with replacement := [], score := 0 }

/-- `optimize_bigjump`: drop the drawn slots in a trial copy, run the
inner rounds on the trial (the C++ runs 25; the list stands for the
drawn rounds), and commit the whole trial only on strict improvement. -/
def optimize_bigjump (df : DataFile) (size : Nat) (drops : List Nat)
    (rounds : List InnerChoices) : DataFile × Nat :=
  let trial := drops.foldl clear_entry df
  let res := rounds.foldl bigjump_inner (trial, encoded_size_df trial)
  if res.2 < size then (res.1, res.2) else (df, size)

/-- One slot of the `update_scores` sweep: measure the cost of clearing
slot `i`; keep the entry with the new score if it is positive, clear
the slot otherwise.  `oldsize` is measured once, before the sweep. -/
def update_scores_step (oldsize : Nat) (df : DataFile) (i : Nat) :
    DataFile :=
  let newsize := encoded_size_df (setDictEntry df i dummy_dictentry)
  if 0 < (newsize : Int) - (oldsize : Int) then
    setDictEntry df i
      { getDictEntry df i with
        score := (newsize : Int) - (oldsize : Int) }
  else setDictEntry df i dummy_dictentry

/-- `update_scores`. -/
def update_scores (df : DataFile) : DataFile :=
  (List.range dictionarysize).foldl
    (update_scores_step (encoded_size_df df)) df

/-- The per-iteration draws of the `optimize` main loop. -/
structure OptChoices where
  worst_sub : BitString
  any_index : Nat
  any_sub : BitString
  expand_index : Nat
  expand_ops : List (Bool × Bool)
  trim_index : Nat
  trim_start : Nat
  trim_end : Nat
  refdict_index : Nat
  combine_i1 : Nat
  combine_i2 : Nat
deriving DecidableEq, Repr

/-- One iteration of the `optimize` main loop: worst, any, expand,
trim, refdict, combine. -/
def optimize_iteration (st : DataFile × Nat) (c : OptChoices) :
    DataFile × Nat :=
  let s1 := optimize_worst st.1 st.2 c.worst_sub
  let s2 := optimize_any s1.1 s1.2 c.any_index c.any_sub
  let s3 := optimize_expand s2.1 s2.2 c.expand_index c.expand_ops
  let s4 := optimize_trim s3.1 s3.2 c.trim_index c.trim_start c.trim_end
  let s5 := optimize_refdict s4.1 s4.2 c.refdict_index
  optimize_combine s5.1 s5.2 c.combine_i1 c.combine_i2

/-- `optimize(datafile, iterations)`: the scoring sweep, one
`OptChoices` per iteration, and the final reseed (`bigjump` is defined
but commented out of the loop in the source). -/
def optimize (df : DataFile) (rounds : List OptChoices)
    (newseed : Nat) : DataFile :=
  let df1 := update_scores df
  let res := rounds.foldl optimize_iteration
    (df1, encoded_size_df df1)
  setSeed res.1 newseed

/-! ## The encoder ignores scores -/

/-- The part of a dictionary entry the encoder reads. -/
def EqMod (a b : Dictentry) : Prop :=
  a.replacement = b.replacement ∧ a.ref_encode = b.ref_encode

theorem EqMod_refl (a : Dictentry) : EqMod a a := ⟨rfl, rfl⟩

theorem EqMod_score (d : Dictentry) (s : Int) :
    EqMod { d with score := s } d := ⟨rfl, rfl⟩

theorem sort_key_congr (a b : Dictentry) (h : EqMod a b) :
    sort_key a = sort_key b := by
  simp [sort_key, h.1, h.2]

theorem keyGroup_congr (k : Nat) :
    ∀ (l l' : List Dictentry), List.Forall₂ EqMod l l' →
      List.Forall₂ EqMod (keyGroup k l) (keyGroup k l') := by
  intro l l' h
  induction h with
  | nil => exact List.Forall₂.nil
  | cons hab htail ih =>
    rename_i a b l1 l2
    simp only [keyGroup, List.filter_cons]
    rw [sort_key_congr a b hab]
    split
    · exact List.Forall₂.cons hab ih
    · exact ih

theorem stable_sort_congr (l l' : List Dictentry)
    (h : List.Forall₂ EqMod l l') :
    List.Forall₂ EqMod (stable_sort_dict l) (stable_sort_dict l') := by
  have h0 := keyGroup_congr 0 l l' h
  have h1 := keyGroup_congr 1 l l' h
  have h2 := keyGroup_congr 2 l l' h
  have h3 := keyGroup_congr 3 l l' h
  simp only [keyGroup] at h0 h1 h2 h3
  exact List.rel_append (List.rel_append (List.rel_append h0 h1) h2) h3

theorem insertEntries_congr :
    ∀ (l l' : List Dictentry), List.Forall₂ EqMod l l' →
      ∀ (t : Dicttree) (i : Nat),
        insertEntries l t i = insertEntries l' t i := by
  intro l l' h
  induction h with
  | nil => intro t i; rfl
  | cons hab htail ih =>
    intro t i
    rename_i a b l1 l2
    rw [insertEntries, insertEntries, hab.1, hab.2]
    exact ih _ _

theorem construct_tree_congr (l l' : List Dictentry)
    (h : List.Forall₂ EqMod l l') :
    construct_tree l = construct_tree l' := by
  rw [construct_tree, construct_tree, insertEntries_congr l l' h]

theorem encode_dict_entries_congr (t : Dicttree) :
    ∀ (l l' : List Dictentry), List.Forall₂ EqMod l l' →
      encode_dict_entries t l = encode_dict_entries t l' := by
  intro l l' h
  induction h with
  | nil => rfl
  | cons hab htail ih =>
    rename_i a b l1 l2
    rw [encode_dict_entries, encode_dict_entries, hab.1, hab.2, ih]

theorem encode_font_congr (df df' : DataFile)
    (hg : df.glyphs = df'.glyphs)
    (hd : List.Forall₂ EqMod df.dictionary df'.dictionary) :
    encode_font df = encode_font df' := by
  have hsort := stable_sort_congr df.dictionary df'.dictionary hd
  have htree := construct_tree_congr _ _ hsort
  simp only [encode_font]
  rw [htree, encode_dict_entries_congr _ _ _ hsort, hg]

theorem encoded_size_congr (df df' : DataFile)
    (hg : df.glyphs = df'.glyphs)
    (hd : List.Forall₂ EqMod df.dictionary df'.dictionary) :
    encoded_size_df df = encoded_size_df df' := by
  rw [encoded_size_df, encoded_size_df, encode_font_congr df df' hg hd]

theorem forall₂_set (r : Dictentry → Dictentry → Prop) :
    ∀ (l l' : List Dictentry), List.Forall₂ r l l' →
      ∀ (i : Nat) (a b : Dictentry), r a b →
        List.Forall₂ r (l.set i a) (l'.set i b) := by
  intro l l' h
  induction h with
  | nil => intro i a b _; exact List.Forall₂.nil
  | cons hab htail ih =>
    intro i a b hr
    match i with
    | 0 => exact List.Forall₂.cons hr htail
    | i + 1 => exact List.Forall₂.cons hab (ih i a b hr)

/-- Writing back the same entry with a different score does not change
the encoded size. -/
theorem encoded_size_set_score (df : DataFile) (i : Nat) (d : Dictentry)
    (s : Int) :
    encoded_size_df (setDictEntry df i { d with score := s }) =
      encoded_size_df (setDictEntry df i d) := by
  apply encoded_size_congr
  · rfl
  · exact forall₂_set EqMod df.dictionary df.dictionary
      (List.forall₂_same.2 (fun x _ => EqMod_refl x)) i _ _ (EqMod_score d s)

theorem set_getD_self (l : List Dictentry) :
    ∀ i : Nat, l.set i (l.getD i dummy_dictentry) = l := by
  induction l with
  | nil => intro i; rfl
  | cons x xs ih =>
    intro i
    match i with
    | 0 => simp
    | i + 1 =>
      simp only [List.getD_cons_succ, List.set_cons_succ]
      rw [ih i]

theorem setDictEntry_getDictEntry (df : DataFile) (i : Nat) :
    setDictEntry df i (getDictEntry df i) = df := by
  simp only [setDictEntry, getDictEntry, set_getD_self]

/-! ## Size behavior of the operators -/

/-- The running size matches the DataFile it accompanies. -/
def SizeInv (st : DataFile × Nat) : Prop :=
  st.2 = encoded_size_df st.1

theorem SizeInv_mk (df : DataFile) : SizeInv (df, encoded_size_df df) :=
  rfl

theorem apply_trial_spec (df : DataFile) (size : Nat) (index : Nat)
    (d : Dictentry) (h : size = encoded_size_df df) :
    (apply_trial df size index d).2 =
        encoded_size_df (apply_trial df size index d).1 ∧
      (apply_trial df size index d).2 ≤ size := by
  simp only [apply_trial]
  split
  · rename_i hlt
    constructor
    · exact (encoded_size_set_score df index d _).symm
    · exact le_of_lt hlt
  · exact ⟨h, le_rfl⟩

theorem optimize_worst_spec (st : DataFile × Nat) (sub : BitString)
    (h : SizeInv st) :
    SizeInv (optimize_worst st.1 st.2 sub) ∧
      (optimize_worst st.1 st.2 sub).2 ≤ st.2 := by
  rw [optimize_worst]
  exact apply_trial_spec st.1 st.2 _ _ h

theorem optimize_any_spec (st : DataFile × Nat) (index : Nat)
    (sub : BitString) (h : SizeInv st) :
    SizeInv (optimize_any st.1 st.2 index sub) ∧
      (optimize_any st.1 st.2 index sub).2 ≤ st.2 := by
  rw [optimize_any]
  exact apply_trial_spec st.1 st.2 _ _ h

theorem optimize_expand_spec (st : DataFile × Nat) (index : Nat)
    (ops : List (Bool × Bool)) (h : SizeInv st) :
    SizeInv (optimize_expand st.1 st.2 index ops) ∧
      (optimize_expand st.1 st.2 index ops).2 ≤ st.2 := by
  rw [optimize_expand]
  exact apply_trial_spec st.1 st.2 _ _ h

theorem optimize_trim_spec (st : DataFile × Nat) (index : Nat)
    (s e : Nat) (h : SizeInv st) :
    SizeInv (optimize_trim st.1 st.2 index s e) ∧
      (optimize_trim st.1 st.2 index s e).2 ≤ st.2 := by
  rw [optimize_trim]
  split
  · exact ⟨h, le_rfl⟩
  · exact apply_trial_spec st.1 st.2 _ _ h

theorem optimize_refdict_spec (st : DataFile × Nat) (index : Nat)
    (h : SizeInv st) :
    SizeInv (optimize_refdict st.1 st.2 index) ∧
      (optimize_refdict st.1 st.2 index).2 ≤ st.2 := by
  rw [optimize_refdict]
  exact apply_trial_spec st.1 st.2 _ _ h

theorem optimize_combine_spec (st : DataFile × Nat)
    (index1 index2 : Nat) (h : SizeInv st) :
    SizeInv (optimize_combine st.1 st.2 index1 index2) ∧
      (optimize_combine st.1 st.2 index1 index2).2 ≤ st.2 := by
  rw [optimize_combine]
  exact apply_trial_spec st.1 st.2 _ _ h

theorem bigjump_inner_spec (st : DataFile × Nat) (c : InnerChoices)
    (h : SizeInv st) :
    SizeInv (bigjump_inner st c) ∧ (bigjump_inner st c).2 ≤ st.2 := by
  simp only [bigjump_inner]
  have h1 := optimize_worst_spec st c.worst_sub h
  have h2 := optimize_any_spec (optimize_worst st.1 st.2 c.worst_sub)
    c.any_index c.any_sub h1.1
  have h3 := optimize_expand_spec _ c.expand_index c.expand_ops h2.1
  have h4 := optimize_refdict_spec _ c.refdict_index h3.1
  have h5 := optimize_combine_spec _ c.combine_i1 c.combine_i2 h4.1
  exact ⟨h5.1, le_trans h5.2 (le_trans h4.2 (le_trans h3.2
    (le_trans h2.2 h1.2)))⟩

theorem bigjump_fold_spec (rounds : List InnerChoices) :
    ∀ st : DataFile × Nat, SizeInv st →
      SizeInv (rounds.foldl bigjump_inner st) ∧
        (rounds.foldl bigjump_inner st).2 ≤ st.2 := by
  induction rounds with
  | nil => intro st h; exact ⟨h, le_rfl⟩
  | cons c rounds ih =>
    intro st h
    rw [List.foldl_cons]
    have h1 := bigjump_inner_spec st c h
    have h2 := ih (bigjump_inner st c) h1.1
    exact ⟨h2.1, le_trans h2.2 h1.2⟩

theorem optimize_bigjump_spec (df : DataFile) (size : Nat)
    (drops : List Nat) (rounds : List InnerChoices)
    (h : size = encoded_size_df df) :
    (optimize_bigjump df size drops rounds).2 =
        encoded_size_df (optimize_bigjump df size drops rounds).1 ∧
      (optimize_bigjump df size drops rounds).2 ≤ size := by
  simp only [optimize_bigjump]
  have hfold := bigjump_fold_spec rounds
    (drops.foldl clear_entry df,
      encoded_size_df (drops.foldl clear_entry df))
    (SizeInv_mk (drops.foldl clear_entry df))
  split
  · rename_i hlt
    exact ⟨hfold.1, le_of_lt hlt⟩
  · exact ⟨h, le_rfl⟩

theorem optimize_iteration_spec (st : DataFile × Nat) (c : OptChoices)
    (h : SizeInv st) :
    SizeInv (optimize_iteration st c) ∧
      (optimize_iteration st c).2 ≤ st.2 := by
  simp only [optimize_iteration]
  have h1 := optimize_worst_spec st c.worst_sub h
  have h2 := optimize_any_spec (optimize_worst st.1 st.2 c.worst_sub)
    c.any_index c.any_sub h1.1
  have h3 := optimize_expand_spec _ c.expand_index c.expand_ops h2.1
  have h4 := optimize_trim_spec _ c.trim_index c.trim_start c.trim_end h3.1
  have h5 := optimize_refdict_spec _ c.refdict_index h4.1
  have h6 := optimize_combine_spec _ c.combine_i1 c.combine_i2 h5.1
  exact ⟨h6.1, le_trans h6.2 (le_trans h5.2 (le_trans h4.2
    (le_trans h3.2 (le_trans h2.2 h1.2))))⟩

theorem optimize_fold_spec (rounds : List OptChoices) :
    ∀ st : DataFile × Nat, SizeInv st →
      SizeInv (rounds.foldl optimize_iteration st) ∧
        (rounds.foldl optimize_iteration st).2 ≤ st.2 := by
  induction rounds with
  | nil => intro st h; exact ⟨h, le_rfl⟩
  | cons c rounds ih =>
    intro st h
    rw [List.foldl_cons]
    have h1 := optimize_iteration_spec st c h
    have h2 := ih (optimize_iteration st c) h1.1
    exact ⟨h2.1, le_trans h2.2 h1.2⟩

/-! ## `update_scores` never increases the size -/

theorem update_scores_step_le (S : Nat) (df : DataFile) (i : Nat)
    (h : encoded_size_df df ≤ S) :
    encoded_size_df (update_scores_step S df i) ≤ S := by
  simp only [update_scores_step]
  split
  · rw [encoded_size_set_score, setDictEntry_getDictEntry]
    exact h
  · rename_i hcl
    omega

theorem update_scores_fold_le (S : Nat) :
    ∀ (is : List Nat) (df : DataFile), encoded_size_df df ≤ S →
      encoded_size_df (is.foldl (update_scores_step S) df) ≤ S := by
  intro is
  induction is with
  | nil => intro df h; exact h
  | cons i is ih =>
    intro df h
    exact ih _ (update_scores_step_le S df i h)

theorem update_scores_le (df : DataFile) :
    encoded_size_df (update_scores df) ≤ encoded_size_df df := by
  rw [update_scores]
  exact update_scores_fold_le _ _ df le_rfl

theorem encoded_size_setSeed (df : DataFile) (s : Nat) :
    encoded_size_df (setSeed df s) = encoded_size_df df := by
  apply encoded_size_congr
  · rfl
  · exact List.forall₂_same.2 (fun x _ => EqMod_refl x)

/-- C2: for every DataFile and every iteration count (list of per-round
draws), the encoded size after `optimize` is at most the encoded size
before; the `update_scores` sweep and each individual mutation operator
(with the running size in sync with the DataFile, as the main loop
keeps it) never increase the size. -/
theorem C2_optimizer_monotone :
    (∀ (df : DataFile) (rounds : List OptChoices) (newseed : Nat),
      encoded_size_df (optimize df rounds newseed) ≤
        encoded_size_df df) ∧
    (∀ df : DataFile,
      encoded_size_df (update_scores df) ≤ encoded_size_df df) ∧
    (∀ (st : DataFile × Nat) (sub : BitString), SizeInv st →
      (optimize_worst st.1 st.2 sub).2 ≤ st.2) ∧
    (∀ (st : DataFile × Nat) (index : Nat) (sub : BitString), SizeInv st →
      (optimize_any st.1 st.2 index sub).2 ≤ st.2) ∧
    (∀ (st : DataFile × Nat) (index : Nat) (ops : List (Bool × Bool)),
      SizeInv st → (optimize_expand st.1 st.2 index ops).2 ≤ st.2) ∧
    (∀ (st : DataFile × Nat) (index s e : Nat), SizeInv st →
      (optimize_trim st.1 st.2 index s e).2 ≤ st.2) ∧
    (∀ (st : DataFile × Nat) (index : Nat), SizeInv st →
      (optimize_refdict st.1 st.2 index).2 ≤ st.2) ∧
    (∀ (st : DataFile × Nat) (i1 i2 : Nat), SizeInv st →
      (optimize_combine st.1 st.2 i1 i2).2 ≤ st.2) ∧
    (∀ (df : DataFile) (size : Nat) (drops : List Nat)
      (rounds : List InnerChoices), size = encoded_size_df df →
      (optimize_bigjump df size drops rounds).2 ≤ size) := by
  refine ⟨?_, update_scores_le,
    fun st sub h => (optimize_worst_spec st sub h).2,
    fun st i sub h => (optimize_any_spec st i sub h).2,
    fun st i ops h => (optimize_expand_spec st i ops h).2,
    fun st i s e h => (optimize_trim_spec st i s e h).2,
    fun st i h => (optimize_refdict_spec st i h).2,
    fun st i1 i2 h => (optimize_combine_spec st i1 i2 h).2,
    fun df size drops rounds h =>
      (optimize_bigjump_spec df size drops rounds h).2⟩
  intro df rounds newseed
  simp only [optimize]
  rw [encoded_size_setSeed]
  have hfold := optimize_fold_spec rounds
    (update_scores df, encoded_size_df (update_scores df))
    (SizeInv_mk (update_scores df))
  have hle := update_scores_le df
  have h1 := hfold.1
  rw [SizeInv] at h1
  rw [← h1]
  exact le_trans hfold.2 hle

/-- Concrete font for the C2 witness. -/
def C2df : DataFile := ⟨[⟨[true, false], 1⟩], [⟨[true], false, 1⟩], ⟨2, 1⟩, 0⟩

theorem C2_optimizer_monotone_witness :
    SizeInv (C2df, encoded_size_df C2df) ∧
      (optimize_worst C2df (encoded_size_df C2df) [true, true]).2 ≤
        encoded_size_df C2df ∧
      (optimize_trim C2df (encoded_size_df C2df) 0 1 1).2 ≤
        encoded_size_df C2df ∧
      (optimize_bigjump C2df (encoded_size_df C2df) [0] []).2 ≤
        encoded_size_df C2df :=
  ⟨SizeInv_mk C2df,
    C2_optimizer_monotone.2.2.1 (C2df, encoded_size_df C2df)
      [true, true] (SizeInv_mk C2df),
    C2_optimizer_monotone.2.2.2.2.2.1 (C2df, encoded_size_df C2df)
      0 1 1 (SizeInv_mk C2df),
    C2_optimizer_monotone.2.2.2.2.2.2.2.2 C2df (encoded_size_df C2df)
      [0] [] rfl⟩

/-! ## Claim C7: `optimize` with zero iterations -/

/-- Font whose dictionary holds an unused (hence size-costing) entry:
`update_scores` clears it and the encoded size strictly drops. -/
def C7df : DataFile :=
  ⟨[⟨[true], 1⟩], [⟨[true, true, false], false, 5⟩], ⟨1, 1⟩, 0⟩

/-- C7 counterexample: `optimize(D, 0)` does not leave the encoded size
unchanged — on `C7df` the `update_scores` sweep clears the useless
dictionary entry and the size drops from 8 to 4 bytes. -/
theorem setDictEntry_oob (df : DataFile) (i : Nat) (d : Dictentry)
    (h : df.dictionary.length ≤ i) : setDictEntry df i d = df := by
  simp [setDictEntry, List.set_eq_of_length_le h]

theorem update_scores_step_oob (S : Nat) (df : DataFile) (i : Nat)
    (h : df.dictionary.length ≤ i) : update_scores_step S df i = df := by
  simp only [update_scores_step]
  split <;> rw [setDictEntry_oob df i _ h]

theorem update_scores_fold_oob (S : Nat) :
    ∀ (is : List Nat) (df : DataFile),
      (∀ i ∈ is, df.dictionary.length ≤ i) →
      is.foldl (update_scores_step S) df = df := by
  intro is
  induction is with
  | nil => intro df _; rfl
  | cons i is ih =>
    intro df h
    rw [List.foldl_cons, update_scores_step_oob S df i
      (h i (List.mem_cons_self i is))]
    exact ih df (fun j hj => h j (List.mem_cons_of_mem i hj))

/-- `update_scores` on a DataFile with a single dictionary slot: only
the sweep step at index 0 does anything. -/
theorem update_scores_single (df : DataFile)
    (h0 : (update_scores_step (encoded_size_df df) df 0).dictionary.length
      = 1) :
    update_scores df = update_scores_step (encoded_size_df df) df 0 := by
  rw [update_scores, show dictionarysize = 251 + 1 from rfl,
    List.range_succ_eq_map, List.foldl_cons]
  apply update_scores_fold_oob
  intro i hi
  rw [h0]
  rcases List.mem_map.1 hi with ⟨j, _, hj⟩
  omega

/-- With zero iterations the main loop contributes nothing. -/
theorem optimize_nil_eq (df : DataFile) (s : Nat) :
    optimize df [] s = setSeed (update_scores df) s := by
  simp only [optimize, List.foldl_nil]

set_option maxRecDepth 10000 in
theorem C7_counterexample :
    encoded_size_df C7df = 8 ∧
      encoded_size_df (optimize C7df [] 0) = 4 := by
  have hstep : update_scores_step (encoded_size_df C7df) C7df 0 =
      ⟨[⟨[true], 1⟩], [⟨[], false, 0⟩], ⟨1, 1⟩, 0⟩ := by decide
  have hus : update_scores C7df =
      ⟨[⟨[true], 1⟩], [⟨[], false, 0⟩], ⟨1, 1⟩, 0⟩ := by
    rw [update_scores_single C7df (by rw [hstep]; rfl), hstep]
  constructor
  · decide
  · rw [optimize_nil_eq, encoded_size_setSeed, hus]
    decide

/-- C7 (amended): `optimize(D, 0)` performs no dictionary mutations
besides the `update_scores` sweep and the final reseed — it equals
reseed after `update_scores` — and the resulting encoded size is at
most (but not always equal to) the original. -/
theorem C7_optimize_zero (df : DataFile) (newseed : Nat) :
    optimize df [] newseed = setSeed (update_scores df) newseed ∧
      encoded_size_df (optimize df [] newseed) ≤ encoded_size_df df := by
  constructor
  · exact optimize_nil_eq df newseed
  · rw [optimize_nil_eq, encoded_size_setSeed]
    exact update_scores_le df

/-! ## Claim C8: the trim operator -/

theorem drop_length_sub_one (l : List Bool) (h : l ≠ []) :
    l.drop (l.length - 1) = l.getLast?.toList := by
  induction l with
  | nil => exact absurd rfl h
  | cons x xs ih =>
    match xs, ih with
    | [], _ => simp
    | y :: ys, ih =>
      have hys := ih (by simp)
      rw [List.getLast?_cons_cons]
      simp only [List.length_cons] at hys ⊢
      rw [show ys.length + 1 + 1 - 1 = ys.length + 1 from by omega,
        List.drop_succ_cons]
      simpa [Nat.add_sub_cancel] using hys

theorem getLast?_drop_lt (l : List Bool) (s : Nat) (h : s < l.length) :
    (l.drop s).getLast? = l.getLast? := by
  rw [List.getLast?_drop, if_neg (by omega)]

theorem trim_replacement_zero (l : List Bool) (s : Nat) :
    trim_replacement l s 0 = l.drop s := by
  simp only [trim_replacement]
  rw [if_neg (by omega)]
  by_cases hs : s = 0
  · subst hs
    rw [if_neg (by omega), List.drop_zero]
  · rw [if_pos hs]

/-- With `e ≥ 1`, the trim keeps the final bit and erases the `e - 1`
bits just before it. -/
theorem trim_replacement_pos (l : List Bool) (s e : Nat) (he : 1 ≤ e)
    (hsl : s < l.length) (hel : e ≤ l.length - s) :
    trim_replacement l s e =
        (l.drop s).take (l.length - s - e) ++ l.getLast?.toList ∧
      (trim_replacement l s e).length = l.length - s - (e - 1) ∧
      (trim_replacement l s e).getLast? = l.getLast? := by
  have hl1 : (if s ≠ 0 then l.drop s else l) = l.drop s := by
    by_cases hs : s = 0
    · subst hs
      rw [if_neg (by omega), List.drop_zero]
    · rw [if_pos hs]
  have hdne : l.drop s ≠ [] := by
    intro hcon
    have := congrArg List.length hcon
    simp only [List.length_drop, List.length_nil] at this
    omega
  have hlast : l.drop s ≠ [] → (l.drop s).drop ((l.drop s).length - 1) =
      l.getLast?.toList := by
    intro hne
    rw [drop_length_sub_one (l.drop s) hne, getLast?_drop_lt l s hsl]
  have heq : trim_replacement l s e =
      (l.drop s).take (l.length - s - e) ++ l.getLast?.toList := by
    simp only [trim_replacement]
    rw [hl1, if_pos (by omega), hlast hdne]
    congr 1
    rw [List.length_drop]
  obtain ⟨a, ha⟩ : ∃ a, l.getLast? = some a := by
    cases hx : l.getLast? with
    | none =>
      have : l = [] := by
        cases l with
        | nil => rfl
        | cons x xs => simp [List.getLast?_eq_getLast] at hx
      rw [this] at hsl
      simp at hsl
    | some a => exact ⟨a, rfl⟩
  refine ⟨heq, ?_, ?_⟩
  · rw [heq, ha]
    simp only [List.length_append, List.length_take, List.length_drop,
      Option.toList_some, List.length_cons, List.length_nil]
    omega
  · rw [heq, ha]
    simp

theorem getDictEntry_setDictEntry_self (df : DataFile) (i : Nat)
    (d : Dictentry) (h : i < df.dictionary.length) :
    getDictEntry (setDictEntry df i d) i = d := by
  simp [getDictEntry, setDictEntry, List.getD_eq_getElem?_getD,
    List.getElem?_set_self, h]

/-- Font whose only dictionary entry is `10101`. -/
def C8df : DataFile :=
  ⟨[⟨[true], 1⟩], [⟨[true, false, true, false, true], false, 0⟩],
    ⟨1, 1⟩, 0⟩

/-- C8 counterexample: an accepted trim with `s = 0`, `e = 2` on the
slot `10101` leaves `1011` — the last bit is kept and only `e - 1 = 1`
bit is erased from the back — not the `101` that erasing `e = 2` bits
from the back would give. -/
theorem C8_counterexample :
    (optimize_trim C8df 1000 0 0 2).2 < 1000 ∧
      (getDictEntry (optimize_trim C8df 1000 0 0 2).1 0).replacement =
        [true, false, true, true] ∧
      (getDictEntry (optimize_trim C8df 1000 0 0 2).1 0).replacement ≠
        (([true, false, true, false, true] : List Bool).drop 0).take
          (([true, false, true, false, true] : List Bool).length - 0 - 2) :=
  ⟨by decide, by decide, by decide⟩

/-- C8 (amended): an accepted trim on a slot longer than 2 bits, with
drawn `s, e ∈ [0, min(len/2, 5)]`, stores the old replacement with `s`
bits erased from the front and — when `e ≥ 1` — the `e − 1` bits
immediately before the final bit erased from the back, the original
final bit itself staying intact (`e = 0` erases nothing at the back). -/
theorem C8_trim_semantics (df : DataFile) (size index s e : Nat)
    (hidx : index < df.dictionary.length)
    (hlen : 2 < (getDictEntry df index).replacement.length)
    (hs : s ≤ min ((getDictEntry df index).replacement.length / 2) 5)
    (he : e ≤ min ((getDictEntry df index).replacement.length / 2) 5)
    (hacc : encoded_size_df (setDictEntry df index
      { getDictEntry df index with
        replacement :=
          trim_replacement (getDictEntry df index).replacement s e }) <
      size) :
    (getDictEntry (optimize_trim df size index s e).1 index).replacement =
        trim_replacement (getDictEntry df index).replacement s e ∧
      (e = 0 → trim_replacement (getDictEntry df index).replacement s e =
        (getDictEntry df index).replacement.drop s) ∧
      (1 ≤ e →
        trim_replacement (getDictEntry df index).replacement s e =
          ((getDictEntry df index).replacement.drop s).take
              ((getDictEntry df index).replacement.length - s - e) ++
            (getDictEntry df index).replacement.getLast?.toList ∧
        (trim_replacement (getDictEntry df index).replacement s e).length =
          (getDictEntry df index).replacement.length - s - (e - 1) ∧
        (trim_replacement
            (getDictEntry df index).replacement s e).getLast? =
          (getDictEntry df index).replacement.getLast?) := by
  refine ⟨?_, fun he0 => by rw [he0, trim_replacement_zero], fun he1 =>
    trim_replacement_pos (getDictEntry df index).replacement s e he1
      (by omega) (by omega)⟩
  simp only [optimize_trim]
  rw [if_neg (by omega)]
  simp only [apply_trial]
  rw [if_pos hacc, getDictEntry_setDictEntry_self df index _ hidx]

theorem C8_trim_semantics_witness :
    encoded_size_df (setDictEntry C8df 0
      { getDictEntry C8df 0 with
        replacement :=
          trim_replacement (getDictEntry C8df 0).replacement 1 1 }) <
      1000 ∧
    ((getDictEntry (optimize_trim C8df 1000 0 1 1).1 0).replacement =
        trim_replacement (getDictEntry C8df 0).replacement 1 1 ∧
      ((1 : Nat) = 0 →
        trim_replacement (getDictEntry C8df 0).replacement 1 1 =
        (getDictEntry C8df 0).replacement.drop 1) ∧
      (1 ≤ 1 →
        trim_replacement (getDictEntry C8df 0).replacement 1 1 =
          ((getDictEntry C8df 0).replacement.drop 1).take
              ((getDictEntry C8df 0).replacement.length - 1 - 1) ++
            (getDictEntry C8df 0).replacement.getLast?.toList ∧
        (trim_replacement
            (getDictEntry C8df 0).replacement 1 1).length =
          (getDictEntry C8df 0).replacement.length - 1 - (1 - 1) ∧
        (trim_replacement
            (getDictEntry C8df 0).replacement 1 1).getLast? =
          (getDictEntry C8df 0).replacement.getLast?)) :=
  ⟨by decide, C8_trim_semantics C8df 1000 0 1 1 (by decide) (by decide)
    (by decide) (by decide) (by decide)⟩

/-! ## Claim C9: rejection leaves the live DataFile untouched -/

theorem apply_trial_reject (df : DataFile) (size : Nat) (index : Nat)
    (d : Dictentry)
    (h : size ≤ encoded_size_df (setDictEntry df index d)) :
    apply_trial df size index d = (df, size) := by
  simp only [apply_trial]
  rw [if_neg (by omega)]

/-- C9: each of the seven mutation operators mutates only a trial copy;
whenever the trial's encoded size is at least the current size, the
live DataFile (dictionary, glyphs, fontinfo, seed) and the tracked size
come back exactly unchanged. -/
theorem C9_reject_leaves_unchanged :
    (∀ (df : DataFile) (size : Nat) (sub : BitString),
      size ≤ encoded_size_df (setDictEntry df (getLowScoreIndex df)
        { getDictEntry df (getLowScoreIndex df) with
          replacement := sub }) →
      optimize_worst df size sub = (df, size)) ∧
    (∀ (df : DataFile) (size index : Nat) (sub : BitString),
      size ≤ encoded_size_df (setDictEntry df index
        { getDictEntry df index with replacement := sub }) →
      optimize_any df size index sub = (df, size)) ∧
    (∀ (df : DataFile) (size index : Nat) (ops : List (Bool × Bool)),
      size ≤ encoded_size_df (setDictEntry df index
        { getDictEntry df index with
          replacement :=
            expand_replacement (getDictEntry df index).replacement ops }) →
      optimize_expand df size index ops = (df, size)) ∧
    (∀ (df : DataFile) (size index s e : Nat),
      size ≤ encoded_size_df (setDictEntry df index
        { getDictEntry df index with
          replacement :=
            trim_replacement (getDictEntry df index).replacement s e }) →
      optimize_trim df size index s e = (df, size)) ∧
    (∀ (df : DataFile) (size index : Nat),
      size ≤ encoded_size_df (setDictEntry df index
        { getDictEntry df index with
          ref_encode := !(getDictEntry df index).ref_encode }) →
      optimize_refdict df size index = (df, size)) ∧
    (∀ (df : DataFile) (size i1 i2 : Nat),
      size ≤ encoded_size_df (setDictEntry df (getLowScoreIndex df)
        { dummy_dictentry with
          replacement := (getDictEntry df i1).replacement ++
            (getDictEntry df i2).replacement,
          ref_encode := true }) →
      optimize_combine df size i1 i2 = (df, size)) ∧
    (∀ (df : DataFile) (size : Nat) (drops : List Nat)
        (rounds : List InnerChoices),
      size ≤ (rounds.foldl bigjump_inner (drops.foldl clear_entry df,
        encoded_size_df (drops.foldl clear_entry df))).2 →
      optimize_bigjump df size drops rounds = (df, size)) := by
  refine ⟨?_, ?_, ?_, ?_, ?_, ?_, ?_⟩
  · intro df size sub h
    rw [optimize_worst]
    exact apply_trial_reject df size _ _ h
  · intro df size index sub h
    rw [optimize_any]
    exact apply_trial_reject df size _ _ h
  · intro df size index ops h
    rw [optimize_expand]
    exact apply_trial_reject df size _ _ h
  · intro df size index s e h
    rw [optimize_trim]
    split
    · rfl
    · exact apply_trial_reject df size _ _ h
  · intro df size index h
    rw [optimize_refdict]
    exact apply_trial_reject df size _ _ h
  · intro df size i1 i2 h
    rw [optimize_combine]
    exact apply_trial_reject df size _ _ h
  · intro df size drops rounds h
    simp only [optimize_bigjump]
    rw [if_neg (by omega)]

/-- Concrete font for the C9 witness. -/
def C9df : DataFile := ⟨[⟨[true], 1⟩], [⟨[true, true], false, 1⟩], ⟨1, 1⟩, 0⟩

theorem C9_reject_leaves_unchanged_witness :
    optimize_worst C9df 0 [false] = (C9df, 0) ∧
      optimize_any C9df 0 0 [false] = (C9df, 0) ∧
      optimize_expand C9df 0 0 [(true, true)] = (C9df, 0) ∧
      optimize_trim C9df 0 0 1 1 = (C9df, 0) ∧
      optimize_refdict C9df 0 0 = (C9df, 0) ∧
      optimize_combine C9df 0 0 0 = (C9df, 0) ∧
      optimize_bigjump C9df 0 [0] [] = (C9df, 0) :=
  ⟨C9_reject_leaves_unchanged.1 C9df 0 [false] (Nat.zero_le _),
    C9_reject_leaves_unchanged.2.1 C9df 0 0 [false] (Nat.zero_le _),
    C9_reject_leaves_unchanged.2.2.1 C9df 0 0 [(true, true)]
      (Nat.zero_le _),
    C9_reject_leaves_unchanged.2.2.2.1 C9df 0 0 1 1 (Nat.zero_le _),
    C9_reject_leaves_unchanged.2.2.2.2.1 C9df 0 0 (Nat.zero_le _),
    C9_reject_leaves_unchanged.2.2.2.2.2.1 C9df 0 0 0 (Nat.zero_le _),
    C9_reject_leaves_unchanged.2.2.2.2.2.2 C9df 0 [0] [] (Nat.zero_le _)⟩

/-! ## Claim C10: `random_substring` -/

/-- A draw from `std::uniform_int_distribution(lo, hi)` given the raw
value `r` the engine produced: some value in `[lo, hi]`; constructing
the distribution with `lo > hi` is undefined behavior (`none`). -/
def udist (lo hi r : Nat) : Option Nat :=
  if lo ≤ hi then some (lo + r % (hi + 1 - lo)) else none

/-- `random_substring`: pick a glyph uniformly, a length in
`[2, glyph_bits]`, a start in `[0, glyph_bits - length]`, and slice.
Reading a glyph from an empty table is out-of-range (`none`), and a
glyph shorter than 2 bits makes the length distribution undefined. -/
def random_substring (df : DataFile) (r1 r2 r3 : Nat) :
    Option BitString :=
  if df.glyphs.length = 0 then none
  else
    (udist 0 (df.glyphs.length - 1) r1).bind fun index =>
      (udist 2 ((df.glyphs.getD index ⟨[], 0⟩).data).length r2).bind
        fun len =>
          (udist 0 (((df.glyphs.getD index ⟨[], 0⟩).data).length - len)
            r3).bind fun start =>
            some ((((df.glyphs.getD index ⟨[], 0⟩).data).drop
              start).take len)

/-- C10: `random_substring` is well-defined exactly when the DataFile
has a glyph and the uniformly selected glyph has at least 2 bits, and
it then returns a contiguous slice of that glyph of length in
`[2, glyph_bits]`. -/
theorem C10_random_substring_spec (df : DataFile) (r1 r2 r3 : Nat) :
    ((random_substring df r1 r2 r3).isSome ↔
      df.glyphs.length ≠ 0 ∧
        2 ≤ (df.glyphs.getD (r1 % df.glyphs.length) ⟨[], 0⟩).data.length) ∧
    (∀ out, random_substring df r1 r2 r3 = some out →
      ∃ g ∈ df.glyphs, ∃ start len : Nat, 2 ≤ len ∧ len ≤ g.data.length ∧
        start + len ≤ g.data.length ∧
        out = (g.data.drop start).take len ∧ out.length = len) := by
  by_cases hz : df.glyphs.length = 0
  · rw [random_substring, if_pos hz]
    constructor
    · simp [hz]
    · intro out hcon
      exact absurd hcon (by simp)
  · have hidx : udist 0 (df.glyphs.length - 1) r1 =
        some (r1 % df.glyphs.length) := by
      simp only [udist, if_pos (Nat.zero_le _)]
      rw [show df.glyphs.length - 1 + 1 - 0 = df.glyphs.length from
        by omega, Nat.zero_add]
    rw [random_substring, if_neg hz, hidx]
    simp only [Option.some_bind]
    by_cases h2 : 2 ≤ (df.glyphs.getD (r1 % df.glyphs.length)
        ⟨[], 0⟩).data.length
    · have hlen : udist 2 ((df.glyphs.getD (r1 % df.glyphs.length)
          ⟨[], 0⟩).data).length r2 =
          some (2 + r2 % ((df.glyphs.getD (r1 % df.glyphs.length)
            ⟨[], 0⟩).data.length + 1 - 2)) := by
        simp only [udist, if_pos h2]
      rw [hlen]
      simp only [Option.some_bind]
      have hstart : udist 0 (((df.glyphs.getD (r1 % df.glyphs.length)
          ⟨[], 0⟩).data).length -
          (2 + r2 % ((df.glyphs.getD (r1 % df.glyphs.length)
            ⟨[], 0⟩).data.length + 1 - 2))) r3 =
          some (r3 % (((df.glyphs.getD (r1 % df.glyphs.length)
            ⟨[], 0⟩).data).length -
            (2 + r2 % ((df.glyphs.getD (r1 % df.glyphs.length)
              ⟨[], 0⟩).data.length + 1 - 2)) + 1)) := by
        simp only [udist, if_pos (Nat.zero_le _)]
        rw [Nat.zero_add, Nat.sub_zero]
      rw [hstart]
      simp only [Option.some_bind]
      constructor
      · exact iff_of_true rfl ⟨hz, h2⟩
      · intro out hout
        injection hout with hout
        have hmod2 : r2 % ((df.glyphs.getD (r1 % df.glyphs.length)
            ⟨[], 0⟩).data.length + 1 - 2) <
            (df.glyphs.getD (r1 % df.glyphs.length)
              ⟨[], 0⟩).data.length + 1 - 2 :=
          Nat.mod_lt r2 (by omega)
        have hmod3 : r3 % (((df.glyphs.getD (r1 % df.glyphs.length)
            ⟨[], 0⟩).data).length -
            (2 + r2 % ((df.glyphs.getD (r1 % df.glyphs.length)
              ⟨[], 0⟩).data.length + 1 - 2)) + 1) <
            ((df.glyphs.getD (r1 % df.glyphs.length)
              ⟨[], 0⟩).data).length -
            (2 + r2 % ((df.glyphs.getD (r1 % df.glyphs.length)
              ⟨[], 0⟩).data.length + 1 - 2)) + 1 :=
          Nat.mod_lt r3 (by omega)
        have hmem : df.glyphs.getD (r1 % df.glyphs.length) ⟨[], 0⟩ ∈
            df.glyphs := by
          rw [List.getD_eq_getElem?_getD,
            List.getElem?_eq_getElem (Nat.mod_lt r1 (by omega))]
          exact List.getElem_mem _
        refine ⟨df.glyphs.getD (r1 % df.glyphs.length) ⟨[], 0⟩, hmem,
          r3 % (((df.glyphs.getD (r1 % df.glyphs.length)
            ⟨[], 0⟩).data).length -
            (2 + r2 % ((df.glyphs.getD (r1 % df.glyphs.length)
              ⟨[], 0⟩).data.length + 1 - 2)) + 1),
          2 + r2 % ((df.glyphs.getD (r1 % df.glyphs.length)
            ⟨[], 0⟩).data.length + 1 - 2),
          by omega, by omega, by omega, hout.symm, ?_⟩
        rw [← hout]
        simp only [List.length_take, List.length_drop]
        omega
    · have hlen : udist 2 ((df.glyphs.getD (r1 % df.glyphs.length)
          ⟨[], 0⟩).data).length r2 = none := by
        simp only [udist]
        rw [if_neg h2]
      rw [hlen]
      simp only [Option.none_bind]
      constructor
      · exact iff_of_false (by simp) (fun hc => h2 hc.2)
      · intro out hcon
        exact absurd hcon (by simp)

/-- Concrete font for the C10 witness. -/
def C10df : DataFile := ⟨[⟨[true, true, true], 1⟩], [], ⟨3, 1⟩, 0⟩

theorem C10_random_substring_spec_witness :
    random_substring C10df 0 0 0 = some [true, true] ∧
      (∃ g ∈ C10df.glyphs, ∃ start len : Nat, 2 ≤ len ∧
        len ≤ g.data.length ∧ start + len ≤ g.data.length ∧
        ([true, true] : BitString) = (g.data.drop start).take len ∧
        ([true, true] : BitString).length = len) :=
  ⟨by decide, (C10_random_substring_spec C10df 0 0 0).2 [true, true]
    (by decide)⟩

/-! ## Claim C1: the encode/decode round trip.

The decoder lemmas below push a decoding property code-by-code through
`decode_refstring_aux`, and a characterization of `construct_tree`
identifies which dictionary entry each emitted walk index refers to. -/

/-- Unfolding equation of `decode_refstring_aux` for one code. -/
theorem dra_cons (e : EncodedFont) (fi : Fontinfo)
    (dec : List Nat → Option (List Bool)) (r : Nat) (rest : List Nat)
    (acc : List Bool) :
    decode_refstring_aux e fi dec (r :: rest) acc =
      if r = 0 then decode_refstring_aux e fi dec rest (acc ++ [false])
      else if r = 1 then decode_refstring_aux e fi dec rest (acc ++ [true])
      else if r = 2 then decode_refstring_aux e fi dec rest
        (resizeList acc (fi.max_width * fi.max_height))
      else if r = 3 then decode_refstring_aux e fi dec rest acc
      else if r - 4 < e.rle_dictionary.length then
        decode_refstring_aux e fi dec rest
          (acc ++ expand_rle (e.rle_dictionary.getD (r - 4) []))
      else
        match e.ref_dictionary.get? (r - 4 - e.rle_dictionary.length) with
        | none => none
        | some s =>
          match dec s with
          | none => none
          | some part => decode_refstring_aux e fi dec rest (acc ++ part) :=
  rfl

/-- A successful pass over a first batch of codes continues with the
remaining codes from the accumulated output. -/
theorem decode_refstring_aux_append (e : EncodedFont) (fi : Fontinfo)
    (dec : List Nat → Option (List Bool)) :
    ∀ (l1 l2 : List Nat) (acc acc1 : List Bool),
      decode_refstring_aux e fi dec l1 acc = some acc1 →
      decode_refstring_aux e fi dec (l1 ++ l2) acc =
        decode_refstring_aux e fi dec l2 acc1 := by
  intro l1
  induction l1 with
  | nil =>
    intro l2 acc acc1 h
    simp only [decode_refstring_aux] at h
    injection h with h
    subst h
    rfl
  | cons r rest ih =>
    intro l2 acc acc1 h
    rw [dra_cons] at h
    rw [List.cons_append, dra_cons]
    by_cases h0 : r = 0
    · rw [if_pos h0] at h ⊢
      exact ih l2 _ acc1 h
    · rw [if_neg h0] at h ⊢
      by_cases h1 : r = 1
      · rw [if_pos h1] at h ⊢
        exact ih l2 _ acc1 h
      · rw [if_neg h1] at h ⊢
        by_cases h2 : r = 2
        · rw [if_pos h2] at h ⊢
          exact ih l2 _ acc1 h
        · rw [if_neg h2] at h ⊢
          by_cases h3 : r = 3
          · rw [if_pos h3] at h ⊢
            exact ih l2 _ acc1 h
          · rw [if_neg h3] at h ⊢
            by_cases h4 : r - 4 < e.rle_dictionary.length
            · rw [if_pos h4] at h ⊢
              exact ih l2 _ acc1 h
            · rw [if_neg h4] at h ⊢
              cases hget : e.ref_dictionary.get?
                  (r - 4 - e.rle_dictionary.length) with
              | none =>
                rw [hget] at h
                exact Option.noConfusion h
              | some sj =>
                rw [hget] at h
                have h2 : (match dec sj with
                    | none => none
                    | some part =>
                      decode_refstring_aux e fi dec rest (acc ++ part)) =
                    some acc1 := h
                show (match dec sj with
                    | none => none
                    | some part =>
                      decode_refstring_aux e fi dec (rest ++ l2)
                        (acc ++ part)) =
                  decode_refstring_aux e fi dec l2 acc1
                cases hdec : dec sj with
                | none =>
                  rw [hdec] at h2
                  exact Option.noConfusion h2
                | some part =>
                  rw [hdec] at h2
                  have h3 : decode_refstring_aux e fi dec rest (acc ++ part) =
                      some acc1 := h2
                  show decode_refstring_aux e fi dec (rest ++ l2)
                      (acc ++ part) =
                    decode_refstring_aux e fi dec l2 acc1
                  exact ih l2 _ acc1 h3

/-- Code 0 appends a zero bit. -/
theorem dra_code_zero (e : EncodedFont) (fi : Fontinfo)
    (dec : List Nat → Option (List Bool)) (acc : List Bool) :
    decode_refstring_aux e fi dec [0] acc = some (acc ++ [false]) := by
  rw [dra_cons, if_pos rfl]
  rfl

/-- Code 1 appends a one bit. -/
theorem dra_code_one (e : EncodedFont) (fi : Fontinfo)
    (dec : List Nat → Option (List Bool)) (acc : List Bool) :
    decode_refstring_aux e fi dec [1] acc = some (acc ++ [true]) := by
  rw [dra_cons, if_neg (by omega), if_pos rfl]
  rfl

/-- A code addressing the RLE dictionary appends the expansion of the
stored RLE string. -/
theorem dra_code_rle (e : EncodedFont) (fi : Fontinfo)
    (dec : List Nat → Option (List Bool)) (k : Nat) (s : List Bool)
    (hk : k < e.rle_dictionary.length)
    (hs : e.rle_dictionary.getD k [] = encode_rle s) (acc : List Bool) :
    decode_refstring_aux e fi dec [k + 4] acc = some (acc ++ s) := by
  have hlt : k + 4 - 4 < e.rle_dictionary.length := by omega
  rw [dra_cons, if_neg (by omega), if_neg (by omega), if_neg (by omega),
    if_neg (by omega), if_pos hlt]
  have hk4 : k + 4 - 4 = k := by omega
  rw [hk4, hs, expand_rle_encode_rle]
  rfl

/-- A code addressing the ref dictionary appends whatever the recursive
expansion of the stored refstring produces. -/
theorem dra_code_ref (e : EncodedFont) (fi : Fontinfo)
    (dec : List Nat → Option (List Bool)) (c : Nat) (sj : List Nat)
    (s : List Bool) (h4le : 4 ≤ c)
    (hge : ¬ c - 4 < e.rle_dictionary.length)
    (hget : e.ref_dictionary.get? (c - 4 - e.rle_dictionary.length) =
      some sj)
    (hdec : dec sj = some s) (acc : List Bool) :
    decode_refstring_aux e fi dec [c] acc = some (acc ++ s) := by
  rw [dra_cons, if_neg (by omega), if_neg (by omega), if_neg (by omega),
    if_neg (by omega), if_neg hge]
  simp only [hget, hdec]
  rfl

/-- Inserting pairwise-distinct entries whose paths are all unclaimed
claims one fresh node per entry, with consecutive indices starting at
the current counter plus 4, and touches no other node. -/
theorem insertEntries_char :
    ∀ (S : List Dictentry) (t : Dicttree) (m : Nat),
      (∀ d ∈ S, (lookupNode t d.replacement).idx < 0) →
      S.Pairwise (fun a b => a.replacement ≠ b.replacement) →
      (∀ (k : Nat) (hk : k < S.length),
        (lookupNode (insertEntries S t m).1 (S.get ⟨k, hk⟩).replacement).idx =
            ((m + k + 4 : Nat) : Int) ∧
          (lookupNode (insertEntries S t m).1 (S.get ⟨k, hk⟩).replacement).rf =
            (S.get ⟨k, hk⟩).ref_encode) ∧
      (∀ q : List Bool, (∀ d ∈ S, d.replacement ≠ q) →
        (lookupNode (insertEntries S t m).1 q).idx = (lookupNode t q).idx ∧
        (lookupNode (insertEntries S t m).1 q).rf = (lookupNode t q).rf) := by
  intro S
  induction S with
  | nil =>
    intro t m _ _
    exact ⟨fun k hk => absurd hk (by simp), fun q _ => ⟨rfl, rfl⟩⟩
  | cons d S ih =>
    intro t m hfresh hpair
    rw [List.pairwise_cons] at hpair
    have hat := insertPath_lookup_at ((m + 4 : Nat) : Int) d.ref_encode
      d.replacement t
    rw [if_pos (hfresh d (List.mem_cons_self d S))] at hat
    obtain ⟨hidx0, hrf0, hclaim⟩ := hat
    have hneAll : ∀ q : List Bool, q ≠ d.replacement →
        (lookupNode (insertPath ((m + 4 : Nat) : Int) d.ref_encode
          d.replacement t).1 q).idx = (lookupNode t q).idx ∧
        (lookupNode (insertPath ((m + 4 : Nat) : Int) d.ref_encode
          d.replacement t).1 q).rf = (lookupNode t q).rf :=
      fun q hq => insertPath_lookup_ne ((m + 4 : Nat) : Int) d.ref_encode
        d.replacement t q hq
    rw [insertEntries]
    generalize hres : insertPath ((m + 4 : Nat) : Int) d.ref_encode
      d.replacement t = res at hidx0 hrf0 hclaim hneAll ⊢
    rw [hclaim, if_pos rfl]
    have hfresh2 : ∀ d2 ∈ S, (lookupNode res.1 d2.replacement).idx < 0 := by
      intro d2 hd2
      rw [(hneAll d2.replacement (hpair.1 d2 hd2).symm).1]
      exact hfresh d2 (List.mem_cons_of_mem d hd2)
    have IH := ih res.1 (m + 1) hfresh2 hpair.2
    refine ⟨?_, ?_⟩
    · intro k hk
      match k with
      | 0 =>
        have hu := IH.2 d.replacement (fun d2 hd2 => (hpair.1 d2 hd2).symm)
        constructor
        · show (lookupNode (insertEntries S res.1 (m + 1)).1
              d.replacement).idx = ((m + 0 + 4 : Nat) : Int)
          rw [hu.1, hidx0]
        · show (lookupNode (insertEntries S res.1 (m + 1)).1
              d.replacement).rf = d.ref_encode
          rw [hu.2, hrf0]
      | k + 1 =>
        have hk2 : k < S.length := by
          simp only [List.length_cons] at hk
          omega
        have hKk := IH.1 k hk2
        constructor
        · show (lookupNode (insertEntries S res.1 (m + 1)).1
              (S.get ⟨k, hk2⟩).replacement).idx =
            ((m + (k + 1) + 4 : Nat) : Int)
          rw [hKk.1]
          omega
        · show (lookupNode (insertEntries S res.1 (m + 1)).1
              (S.get ⟨k, hk2⟩).replacement).rf = (S.get ⟨k, hk2⟩).ref_encode
          exact hKk.2
    · intro q hq
      have hqd : q ≠ d.replacement :=
        fun hcon => hq d (List.mem_cons_self d S) hcon.symm
      have hu := IH.2 q (fun d2 hd2 => hq d2 (List.mem_cons_of_mem d hd2))
      have hnq := hneAll q hqd
      exact ⟨by rw [hu.1, hnq.1], by rw [hu.2, hnq.2]⟩

/-- Every path other than the two hardcoded single-bit children is
unclaimed in the bare root. -/
theorem rootTree_lookup_other (q : List Bool) (h0 : q ≠ [false])
    (h1 : q ≠ [true]) : (lookupNode rootTree q).idx = -1 := by
  match q with
  | [] => rfl
  | [b] =>
    cases b
    · exact absurd rfl h0
    · exact absurd rfl h1
  | b :: c :: rest => cases b <;> cases c <;> simp [rootTree]

/-- The non-empty dictionary entries in sorted order: the RLE group
followed by the ref group.  These are the entries that receive the tree
indices 4, 5, ... in `construct_tree`, in order, and also the entries
whose encodings populate the two dictionary sections of the output. -/
def dictLine (dict : List Dictentry) : List Dictentry :=
  keyGroup 0 dict ++ keyGroup 1 dict

theorem dictLine_length (dict : List Dictentry) :
    (dictLine dict).length =
      (keyGroup 0 dict).length + (keyGroup 1 dict).length := by
  simp [dictLine]

theorem dictLine_get_left (dict : List Dictentry) (k : Nat)
    (hk0 : k < (keyGroup 0 dict).length)
    (hk : k < (dictLine dict).length) :
    (dictLine dict).get ⟨k, hk⟩ = (keyGroup 0 dict).get ⟨k, hk0⟩ := by
  have hk2 : k < (keyGroup 0 dict ++ keyGroup 1 dict).length := hk
  have h : (keyGroup 0 dict ++ keyGroup 1 dict).get ⟨k, hk2⟩ =
      (keyGroup 0 dict).get ⟨k, hk0⟩ := by
    rw [List.get_eq_getElem, List.get_eq_getElem, List.getElem_append_left]
  exact h

theorem dictLine_get_right (dict : List Dictentry) (k : Nat)
    (hge : (keyGroup 0 dict).length ≤ k)
    (hk : k < (dictLine dict).length) :
    ∃ hk1 : k - (keyGroup 0 dict).length < (keyGroup 1 dict).length,
      (dictLine dict).get ⟨k, hk⟩ =
        (keyGroup 1 dict).get ⟨k - (keyGroup 0 dict).length, hk1⟩ := by
  have hlen := dictLine_length dict
  have hk1 : k - (keyGroup 0 dict).length < (keyGroup 1 dict).length := by
    omega
  have hk2 : k < (keyGroup 0 dict ++ keyGroup 1 dict).length := hk
  refine ⟨hk1, ?_⟩
  have h : (keyGroup 0 dict ++ keyGroup 1 dict).get ⟨k, hk2⟩ =
      (keyGroup 1 dict).get ⟨k - (keyGroup 0 dict).length, hk1⟩ := by
    rw [List.get_eq_getElem, List.get_eq_getElem,
      List.getElem_append_right hge]
  exact h

/-- Characterization of the tree built from the sorted dictionary, under
the amended hypotheses (pairwise-distinct replacements, none equal to a
hardcoded single-bit path): every claimed node below the root other than
the two hardcoded children carries index `k + 4` for the unique entry
`k` of the non-empty sorted line sitting at that path, and every other
node is unclaimed. -/
theorem construct_tree_char (dict : List Dictentry)
    (hpair : (dictLine dict).Pairwise
      (fun a b => a.replacement ≠ b.replacement))
    (hne : ∀ d ∈ dictLine dict,
      d.replacement ≠ [false] ∧ d.replacement ≠ [true]) :
    ∀ q : List Bool, q ≠ [] → q ≠ [false] → q ≠ [true] →
      (∃ (k : Nat) (hk : k < (dictLine dict).length),
        ((dictLine dict).get ⟨k, hk⟩).replacement = q ∧
        (lookupNode (construct_tree (stable_sort_dict dict)) q).idx =
          ((k + 4 : Nat) : Int) ∧
        (lookupNode (construct_tree (stable_sort_dict dict)) q).rf =
          ((dictLine dict).get ⟨k, hk⟩).ref_encode) ∨
      ((∀ d ∈ dictLine dict, d.replacement ≠ q) ∧
        (lookupNode (construct_tree (stable_sort_dict dict)) q).idx = -1) := by
  have hsplit : stable_sort_dict dict =
      dictLine dict ++ (keyGroup 2 dict ++ keyGroup 3 dict) := by
    rw [stable_sort_dict_eq_groups]
    rfl
  have hfresh : ∀ d ∈ dictLine dict,
      (lookupNode rootTree d.replacement).idx < 0 := by
    intro d hd
    rw [rootTree_lookup_other d.replacement (hne d hd).1 (hne d hd).2]
    decide
  have hchar := insertEntries_char (dictLine dict) rootTree 0 hfresh hpair
  have hconstr : ∀ q2 : List Bool, q2 ≠ [] →
      (lookupNode (construct_tree (stable_sort_dict dict)) q2).idx =
        (lookupNode (insertEntries (dictLine dict) rootTree 0).1 q2).idx ∧
      (lookupNode (construct_tree (stable_sort_dict dict)) q2).rf =
        (lookupNode (insertEntries (dictLine dict) rootTree 0).1 q2).rf := by
    intro q2 hq2
    rw [construct_tree, hsplit, insertEntries_append]
    exact insertEntries_empty_lookup _ _ _
      (by
        intro d hd
        rcases List.mem_append.1 hd with h | h
        · exact mem_keyGroup_empty dict d 2 le_rfl h
        · exact mem_keyGroup_empty dict d 3 (by omega) h) q2 hq2
  intro q hq hq0 hq1
  by_cases hex : ∃ (k : Nat) (hk : k < (dictLine dict).length),
      ((dictLine dict).get ⟨k, hk⟩).replacement = q
  · obtain ⟨k, hk, hrepl⟩ := hex
    left
    refine ⟨k, hk, hrepl, ?_, ?_⟩
    · rw [(hconstr q hq).1, ← hrepl, (hchar.1 k hk).1]
      omega
    · rw [(hconstr q hq).2, ← hrepl, (hchar.1 k hk).2]
  · right
    have hnall : ∀ d ∈ dictLine dict, d.replacement ≠ q := by
      intro d hd hcon
      obtain ⟨⟨k, hk⟩, hget⟩ := List.mem_iff_get.1 hd
      exact hex ⟨k, hk, by rw [hget]; exact hcon⟩
    refine ⟨hnall, ?_⟩
    rw [(hconstr q hq).1, (hchar.2 q hnall).1,
      rootTree_lookup_other q hq0 hq1]

/-- A successful walk over the sorted-dictionary tree matched either a
hardcoded single bit (codes 0 and 1) or the replacement of a unique
non-empty dictionary entry (code `k + 4`); outside glyph mode the
matched entry is RLE-coded. -/
theorem walk_code_cases (dict : List Dictentry)
    (hpair : (dictLine dict).Pairwise
      (fun a b => a.replacement ≠ b.replacement))
    (hne : ∀ d ∈ dictLine dict,
      d.replacement ≠ [false] ∧ d.replacement ≠ [true])
    (bits : List Bool) (g : Bool)
    (hpos : 0 ≤ (walk_tree (construct_tree (stable_sort_dict dict))
      bits g).2) :
    (bits.take (walk_tree (construct_tree (stable_sort_dict dict))
        bits g).1 = [false] ∧
      (walk_tree (construct_tree (stable_sort_dict dict)) bits g).2 = 0) ∨
    (bits.take (walk_tree (construct_tree (stable_sort_dict dict))
        bits g).1 = [true] ∧
      (walk_tree (construct_tree (stable_sort_dict dict)) bits g).2 = 1) ∨
    (∃ (k : Nat) (hk : k < (dictLine dict).length),
      bits.take (walk_tree (construct_tree (stable_sort_dict dict))
        bits g).1 = ((dictLine dict).get ⟨k, hk⟩).replacement ∧
      (walk_tree (construct_tree (stable_sort_dict dict)) bits g).2 =
        ((k + 4 : Nat) : Int) ∧
      (g = false →
        ((dictLine dict).get ⟨k, hk⟩).ref_encode = false)) := by
  have hs := walk_tree_sound (construct_tree (stable_sort_dict dict))
    bits g hpos
  have hqne : bits.take (walk_tree (construct_tree (stable_sort_dict dict))
      bits g).1 ≠ [] := by
    intro hcon
    have hlc := congrArg List.length hcon
    rw [List.length_take] at hlc
    simp only [List.length_nil] at hlc
    have h1 := hs.1
    have h2 := hs.2.1
    omega
  by_cases hq0 : bits.take (walk_tree (construct_tree
      (stable_sort_dict dict)) bits g).1 = [false]
  · left
    refine ⟨hq0, ?_⟩
    have hidx := hs.2.2.1
    rw [hq0] at hidx
    rw [← hidx]
    exact (RootKids_construct_tree (stable_sort_dict dict)).1
  · by_cases hq1 : bits.take (walk_tree (construct_tree
        (stable_sort_dict dict)) bits g).1 = [true]
    · right
      left
      refine ⟨hq1, ?_⟩
      have hidx := hs.2.2.1
      rw [hq1] at hidx
      rw [← hidx]
      exact (RootKids_construct_tree (stable_sort_dict dict)).2.2.1
    · right
      right
      have hchar := construct_tree_char dict hpair hne _ hqne hq0 hq1
      rcases hchar with ⟨k, hk, hrepl, hidx2, hrf2⟩ | ⟨_hall, hidx2⟩
      · refine ⟨k, hk, hrepl.symm, ?_, ?_⟩
        · have hidx := hs.2.2.1
          rw [← hidx]
          exact hidx2
        · intro hg
          have hr := hs.2.2.2 hg
          rw [hrf2] at hr
          exact hr
      · exfalso
        have hidx := hs.2.2.1
        rw [hidx] at hidx2
        omega

/-- Decoding a batch of codes (with a fixed recursive expansion)
appends a fixed bitstring to any accumulator. -/
def DecPropD (e : EncodedFont) (fi : Fontinfo)
    (dec : List Nat → Option (List Bool)) (codes : List Nat)
    (sl : List Bool) : Prop :=
  ∀ acc : List Bool,
    decode_refstring_aux e fi dec codes acc = some (acc ++ sl)

theorem DecPropD_app (e : EncodedFont) (fi : Fontinfo)
    (dec : List Nat → Option (List Bool)) :
    ∀ (c1 : List Nat) (s1 : List Bool) (c2 : List Nat) (s2 : List Bool),
      DecPropD e fi dec c1 s1 → DecPropD e fi dec c2 s2 →
      DecPropD e fi dec (c1 ++ c2) (s1 ++ s2) := by
  intro c1 s1 c2 s2 p1 p2 acc
  rw [decode_refstring_aux_append e fi dec c1 c2 acc (acc ++ s1) (p1 acc),
    p2 (acc ++ s1), List.append_assoc]

theorem DecPropD_nil (e : EncodedFont) (fi : Fontinfo)
    (dec : List Nat → Option (List Bool)) : DecPropD e fi dec [] [] := by
  intro acc
  simp [decode_refstring_aux]

/-- The single code emitted for one greedy match decodes back to the
matched slice of the input, provided the dictionary sections hold the
encodings emitted by `encode_font` and the recursive expansion is
correct on the ref dictionary. -/
theorem walk_match_decodes (dict : List Dictentry) (e : EncodedFont)
    (fi : Fontinfo)
    (hpair : (dictLine dict).Pairwise
      (fun a b => a.replacement ≠ b.replacement))
    (hne : ∀ d ∈ dictLine dict,
      d.replacement ≠ [false] ∧ d.replacement ≠ [true])
    (hrle : e.rle_dictionary =
      (keyGroup 0 dict).map (fun d => encode_rle d.replacement))
    (hreflen : e.ref_dictionary.length = (keyGroup 1 dict).length)
    (g : Bool) (dec : List Nat → Option (List Bool))
    (hdec : g = true → ∀ (j : Nat) (hj : j < (keyGroup 1 dict).length),
      dec (e.ref_dictionary.getD j []) =
        some (((keyGroup 1 dict).get ⟨j, hj⟩).replacement))
    (bs : List Bool)
    (hpos : 0 ≤ (walk_tree (construct_tree (stable_sort_dict dict))
      bs g).2) :
    DecPropD e fi dec
      [(walk_tree (construct_tree (stable_sort_dict dict)) bs g).2.toNat]
      (bs.take (walk_tree (construct_tree (stable_sort_dict dict))
        bs g).1) := by
  rcases walk_code_cases dict hpair hne bs g hpos with ⟨hq, hv⟩ | ⟨hq, hv⟩ |
    ⟨k, hk, hq, hv, hrf⟩
  · rw [hq, hv]
    intro acc
    exact dra_code_zero e fi dec acc
  · rw [hq, hv]
    intro acc
    exact dra_code_one e fi dec acc
  · rw [hq, hv]
    rw [show (((k + 4 : Nat) : Int)).toNat = k + 4 from Int.toNat_ofNat _]
    have hRlen : e.rle_dictionary.length = (keyGroup 0 dict).length := by
      rw [hrle, List.length_map]
    by_cases hlt : k < (keyGroup 0 dict).length
    · have hent := dictLine_get_left dict k hlt hk
      have hgetD : e.rle_dictionary.getD k [] =
          encode_rle (((keyGroup 0 dict).get ⟨k, hlt⟩).replacement) := by
        rw [hrle, List.getD_eq_getElem?_getD, List.getElem?_map,
          List.getElem?_eq_getElem hlt]
        simp
      rw [hent]
      intro acc
      exact dra_code_rle e fi dec k _ (by omega) hgetD acc
    · have hgt : g = true := by
        cases hgc : g
        · exfalso
          have hr := hrf hgc
          obtain ⟨hk1, hent⟩ := dictLine_get_right dict k (by omega) hk
          rw [hent] at hr
          have hmem := List.get_mem (keyGroup 1 dict)
            (k - (keyGroup 0 dict).length) hk1
          have hone := (mem_keyGroup_one dict _ hmem).2
          rw [hone] at hr
          exact absurd hr (by simp)
        · rfl
      obtain ⟨hk1, hent⟩ := dictLine_get_right dict k (by omega) hk
      have hjlt : k - (keyGroup 0 dict).length < e.ref_dictionary.length := by
        rw [hreflen]
        exact hk1
      have hget2 : e.ref_dictionary.get?
          (k + 4 - 4 - e.rle_dictionary.length) =
          some (e.ref_dictionary.getD (k - (keyGroup 0 dict).length) []) := by
        rw [show k + 4 - 4 - e.rle_dictionary.length =
          k - (keyGroup 0 dict).length from by omega]
        rw [List.get?_eq_getElem?, List.getElem?_eq_getElem hjlt,
          List.getD_eq_getElem?_getD, List.getElem?_eq_getElem hjlt]
        simp
      have hdecj := hdec hgt (k - (keyGroup 0 dict).length) hk1
      rw [hent]
      intro acc
      exact dra_code_ref e fi dec (k + 4)
        (e.ref_dictionary.getD (k - (keyGroup 0 dict).length) [])
        _ (by omega) (by omega) hget2 hdecj acc

/-- A refstring emitted for a ref-dictionary entry decodes back to the
entry replacement, for every recursive expansion: with `is_glyph =
false` the loop covers the whole bitstring, emits no opcode 2 and never
references the ref dictionary. -/
theorem inner_refstring_decodes (dict : List Dictentry) (e : EncodedFont)
    (fi : Fontinfo)
    (hpair : (dictLine dict).Pairwise
      (fun a b => a.replacement ≠ b.replacement))
    (hne : ∀ d ∈ dictLine dict,
      d.replacement ≠ [false] ∧ d.replacement ≠ [true])
    (hrle : e.rle_dictionary =
      (keyGroup 0 dict).map (fun d => encode_rle d.replacement))
    (hreflen : e.ref_dictionary.length = (keyGroup 1 dict).length)
    (bits : List Bool) (s : List Nat)
    (henc : encode_ref bits (construct_tree (stable_sort_dict dict)) false =
      some s)
    (dec : List Nat → Option (List Bool)) (acc : List Bool) :
    decode_refstring_aux e fi dec s acc = some (acc ++ bits) := by
  obtain ⟨codes, ifin, heq, hge, hle, hP⟩ := encode_ref_cases dict bits false
    (DecPropD e fi dec) (DecPropD_app e fi dec) (DecPropD_nil e fi dec)
    (fun i _ hpos => walk_match_decodes dict e fi hpair hne hrle hreflen
      false dec (fun hcon => absurd hcon Bool.false_ne_true) _ hpos)
  have hge2 : bits.length ≤ ifin := by simpa using hge
  have hifin : ifin = bits.length := by omega
  have hs2 : s = codes := by
    rw [heq] at henc
    rw [hifin] at henc
    rw [if_neg (by omega)] at henc
    injection henc with henc
    exact henc.symm
  subst hs2
  have hres := hP acc
  rw [hifin, List.take_length] at hres
  exact hres

/-- A refstring emitted for a glyph decodes back to the glyph bits when
the glyph has exactly `max_width * max_height` bits: opcode 2 (or the
loop covering the whole bitstring) restores the trimmed trailing
zeros. -/
theorem glyph_refstring_decodes (dict : List Dictentry) (e : EncodedFont)
    (fi : Fontinfo)
    (hpair : (dictLine dict).Pairwise
      (fun a b => a.replacement ≠ b.replacement))
    (hne : ∀ d ∈ dictLine dict,
      d.replacement ≠ [false] ∧ d.replacement ≠ [true])
    (hrle : e.rle_dictionary =
      (keyGroup 0 dict).map (fun d => encode_rle d.replacement))
    (hreflen : e.ref_dictionary.length = (keyGroup 1 dict).length)
    (href : ∀ (j : Nat) (hj : j < (keyGroup 1 dict).length),
      encode_ref (((keyGroup 1 dict).get ⟨j, hj⟩).replacement)
        (construct_tree (stable_sort_dict dict)) false =
        some (e.ref_dictionary.getD j []))
    (bits : List Bool) (s : List Nat)
    (henc : encode_ref bits (construct_tree (stable_sort_dict dict)) true =
      some s)
    (hwh : bits.length = fi.max_width * fi.max_height) (fuel : Nat) :
    decode_refstring e fi (fuel + 1) s [] = some bits := by
  have hdec : (true : Bool) = true →
      ∀ (j : Nat) (hj : j < (keyGroup 1 dict).length),
      (fun s2 => decode_refstring e fi fuel s2 [])
          (e.ref_dictionary.getD j []) =
        some (((keyGroup 1 dict).get ⟨j, hj⟩).replacement) := by
    intro _ j hj
    have hinner := inner_refstring_decodes dict e fi hpair hne hrle hreflen
      _ _ (href j hj)
    cases fuel with
    | zero =>
      show decode_refstring_aux e fi (fun _ => none)
          (e.ref_dictionary.getD j []) [] =
        some (((keyGroup 1 dict).get ⟨j, hj⟩).replacement)
      simpa using hinner (fun _ => none) []
    | succ fuel2 =>
      show decode_refstring_aux e fi
          (fun s2 => decode_refstring e fi fuel2 s2 [])
          (e.ref_dictionary.getD j []) [] =
        some (((keyGroup 1 dict).get ⟨j, hj⟩).replacement)
      simpa using hinner (fun s2 => decode_refstring e fi fuel2 s2 []) []
  obtain ⟨codes, ifin, heq, hge, hle, hP⟩ := encode_ref_cases dict bits true
    (DecPropD e fi (fun s2 => decode_refstring e fi fuel s2 []))
    (DecPropD_app e fi _) (DecPropD_nil e fi _)
    (fun i _ hpos => walk_match_decodes dict e fi hpair hne hrle hreflen
      true (fun s2 => decode_refstring e fi fuel s2 []) hdec _ hpos)
  have hge2 : rtrim_len bits ≤ ifin := by simpa using hge
  have hshow : decode_refstring e fi (fuel + 1) s [] =
      decode_refstring_aux e fi (fun s2 => decode_refstring e fi fuel s2 [])
        s [] := rfl
  rw [hshow]
  by_cases hfin : ifin < bits.length
  · have hs2 : s = codes ++ [2] := by
      rw [heq] at henc
      rw [if_pos hfin] at henc
      injection henc with henc
      exact henc.symm
    subst hs2
    rw [decode_refstring_aux_append e fi _ codes [2] [] (bits.take ifin)
      (by simpa using hP [])]
    rw [dra_cons, if_neg (by omega), if_neg (by omega), if_pos rfl]
    have hres : resizeList (bits.take ifin) (fi.max_width * fi.max_height) =
        bits := by
      rw [resizeList, ← hwh,
        List.take_of_length_le (by rw [List.length_take]; omega),
        List.length_take]
      rw [show bits.length - min ifin bits.length = bits.length - ifin from
        by omega]
      conv_lhs => rw [← rtrim_drop_false bits ifin hge2]
      exact List.take_append_drop ifin bits
    rw [hres]
    rfl
  · have hifin : ifin = bits.length := by omega
    have hs2 : s = codes := by
      rw [heq] at henc
      rw [if_neg hfin] at henc
      injection henc with henc
      exact henc.symm
    subst hs2
    have hres := hP []
    rw [hifin, List.take_length] at hres
    simpa using hres

/-- Font exhibiting the index desynchronization of `construct_tree`: the
first entry duplicates a hardcoded single-bit path `[true]`, so it never
claims a node and the counter `i` stays behind the emission position of
the entries in the encoded dictionary sections. -/
def C1df : DataFile :=
  ⟨[⟨[true, true], 2⟩],
    [⟨[true], false, 0⟩, ⟨[true, true], false, 0⟩], ⟨2, 1⟩, 0⟩

/-- The round trip of the claim fails on `C1df`: the glyph `[true,
true]` matches the second dictionary entry, whose tree index 4 points at
RLE slot 0, which holds the encoding of `[true]`; decoding yields
`[true]` (at every recursion budget) instead of the glyph. -/
theorem C1_counterexample :
    (∀ g ∈ C1df.glyphs, g.data.length =
      C1df.fontinfo.max_width * C1df.fontinfo.max_height) ∧
    encode_font C1df = some ⟨[[129], [130]], [], [[4]]⟩ ∧
    (∀ fuel : Nat, decode_glyph ⟨[[129], [130]], [], [[4]]⟩ 0
      C1df.fontinfo fuel = some [true]) ∧
    some ([true] : List Bool) ≠
      some ((C1df.glyphs.getD 0 ⟨[], 0⟩).data) := by
  refine ⟨by decide, by decide, ?_, by decide⟩
  intro fuel
  have h : ∀ dec : List Nat → Option (List Bool),
      decode_refstring_aux ⟨[[129], [130]], [], [[4]]⟩ C1df.fontinfo dec
        [4] [] = some [true] := by
    intro dec
    have hr := dra_code_rle ⟨[[129], [130]], [], [[4]]⟩ C1df.fontinfo dec 0
      [true] (by decide) (by decide) []
    simpa using hr
  cases fuel with
  | zero => exact h (fun _ => none)
  | succ fuel2 =>
    exact h (fun s2 => decode_refstring ⟨[[129], [130]], [], [[4]]⟩
      C1df.fontinfo fuel2 s2 [])

/-- C1: the amended round trip.  As stated the claim is false (see
`C1_counterexample`): `construct_tree` skips entries whose replacement
path is already claimed, desynchronizing tree indices from emission
order.  Under the amended hypotheses — the non-empty entries of the
sorted dictionary have pairwise-distinct replacements, none equal to a
hardcoded single-bit path `[false]` or `[true]` — and with every glyph
holding exactly `max_width * max_height` bits, decoding any glyph of
`encode_font df` (with at least one level of recursion budget) returns
that glyph bit for bit. -/
theorem C1_round_trip (df : DataFile) (e : EncodedFont) (j fuel : Nat)
    (hpair : (dictLine df.dictionary).Pairwise
      (fun a b => a.replacement ≠ b.replacement))
    (hne : ∀ d ∈ dictLine df.dictionary,
      d.replacement ≠ [false] ∧ d.replacement ≠ [true])
    (hglyph : ∀ g ∈ df.glyphs,
      g.data.length = df.fontinfo.max_width * df.fontinfo.max_height)
    (henc : encode_font df = some e)
    (hj : j < df.glyphs.length) :
    decode_glyph e j df.fontinfo (fuel + 1) =
      some ((df.glyphs.get ⟨j, hj⟩).data) := by
  obtain ⟨e2, he2, hrle, hreflen, href, hglen, hgget⟩ := encode_font_spec df
  rw [henc] at he2
  injection he2 with he2
  subst he2
  rw [decode_glyph]
  have hsj := hgget j hj
  exact glyph_refstring_decodes df.dictionary e df.fontinfo hpair hne hrle
    hreflen href _ _ hsj
    (hglyph _ (List.get_mem df.glyphs j hj)) fuel

/-- Well-behaved one-entry font for the round-trip witness. -/
def C1wdf : DataFile :=
  ⟨[⟨[true, false], 2⟩], [⟨[true, false], false, 1⟩], ⟨2, 1⟩, 0⟩

theorem C1_round_trip_witness :
    (dictLine C1wdf.dictionary).Pairwise
        (fun a b => a.replacement ≠ b.replacement) ∧
      encode_font C1wdf = some ⟨[[129, 1]], [], [[4]]⟩ ∧
      decode_glyph ⟨[[129, 1]], [], [[4]]⟩ 0 C1wdf.fontinfo 1 =
        some [true, false] :=
  ⟨by decide, by decide,
    (C1_round_trip C1wdf ⟨[[129, 1]], [], [[4]]⟩ 0 0 (by decide) (by decide)
      (by decide) (by decide) (by decide)).trans (by decide)⟩

end Mcufont
